import Mathlib

/-!
Verification of the mesh face-adjacency / coplanar-region / face-partition
core of project-primo (`MaterialLibrary.js`, `HighlightManager.js`,
`SelectionManager`).

Numbers: the JavaScript code computes over IEEE doubles; we embed the
computation over exact rationals `ℚ`.  `undefined` values produced by
out-of-range array reads (and the `NaN`s they turn into inside arithmetic)
are modelled with `Option`: `none` stands for `undefined`/`NaN`, and every
numeric comparison involving a `none` is `false`, exactly as every IEEE
comparison involving `NaN` is `false`.
-/

namespace Primo

/-! ### Vectors over ℚ -/

/-- A 3-component rational vector, standing for a Babylon `Vector3`. -/
abbrev V3 := ℚ × ℚ × ℚ

def sub3 (a b : V3) : V3 := (a.1 - b.1, a.2.1 - b.2.1, a.2.2 - b.2.2)

/-- Cross product, the combination `yz, xz, xy` computed by Babylon's
`Plane.CopyFromPoints` from the two edge vectors of a triangle. -/
def cross3 (a b : V3) : V3 :=
  (a.2.1 * b.2.2 - a.2.2 * b.2.1,
   a.2.2 * b.1 - a.1 * b.2.2,
   a.1 * b.2.1 - a.2.1 * b.1)

def dot3 (a b : V3) : ℚ := a.1 * b.1 + a.2.1 * b.2.1 + a.2.2 * b.2.2

/-- Squared euclidean norm (`pyth * pyth` in Babylon's normalisation). -/
def normSq3 (a : V3) : ℚ := dot3 a a

/-- The tolerance `epsilon = 1e-5` shared by `MaterialLibrary`,
`HighlightManager` (`this.epsilon`) and `SelectionManager`. -/
def eps : ℚ := 1 / 100000

/-! ### Reading mesh buffers the way the JavaScript does

`indices[k]` on a JS array is `undefined` when `k` is out of range, hence
`Option Nat`; a vertex index `undefined` makes `Vector3.FromArray(positions,
undefined * 3)` read `positions[NaN] = undefined` three times, so the whole
vertex collapses to `none`.  A vertex whose index is in range but whose
position reads run past `positions.length` gets `NaN` components; any `NaN`
component makes both coplanarity comparisons `false` (NaN comparisons),
which we model by collapsing such a vertex to `none` as well. -/

/-- `indices[3f + j]`. -/
def vertIndex (idx : List Nat) (f j : Nat) : Option Nat := idx.get? (3 * f + j)

/-- `Vector3.FromArray(positions, i * 3)`, `none` when any read is out of
range or the index itself was `undefined`. -/
def vecOf (pos : List ℚ) : Option Nat → Option V3
  | none => none
  | some i =>
    match pos.get? (3 * i), pos.get? (3 * i + 1), pos.get? (3 * i + 2) with
    | some a, some b, some c => some (a, b, c)
    | _, _, _ => none

/-- The `j`-th vertex (j = 0,1,2) of face `f`. -/
def faceVertex (pos : List ℚ) (idx : List Nat) (f j : Nat) : Option V3 :=
  vecOf pos (vertIndex idx f j)

/-- The unnormalised plane normal of face `f`: the cross product of the two
edge vectors that `Plane.FromPoints` feeds into its normalisation.  `none`
when any participating coordinate is `undefined`/`NaN`. -/
def faceCross (pos : List ℚ) (idx : List Nat) (f : Nat) : Option V3 :=
  match faceVertex pos idx f 0, faceVertex pos idx f 1, faceVertex pos idx f 2 with
  | some p0, some p1, some p2 => some (cross3 (sub3 p1 p0) (sub3 p2 p0))
  | _, _, _ => none

/-! ### The coplanarity predicate

The code compares `|dot(refPlane.normal, nbPlane.normal)| > 1 - ε` and
`|refPlane.signedDistanceTo(nbV0)| < ε` where both plane normals are the
cross products above normalised by `1/√(normSq)` (Babylon sets the normal to
`0` when the cross product is `0`, so a degenerate face has normal `0` and
`d = 0`).  In exact arithmetic, for nonzero cross products `u, v`:
`|u·v|/√(|u|²|v|²) > 1-ε  ↔  (u·v)² > (1-ε)²·|u|²·|v|²` and
`|u·(q₀-p₀)|/√|u|² < ε  ↔  (u·(q₀-p₀))² < ε²·|u|²`,
which is the square-free form used below.  A `none` anywhere is a `NaN`
comparison, hence `false`. -/

/-- `Math.abs(Vector3.Dot(referencePlane.normal, neighborNormal)) > 1 - ε`. -/
def isNormalAligned (pos : List ℚ) (idx : List Nat) (seed g : Nat) : Bool :=
  match faceCross pos idx seed, faceCross pos idx g with
  | some u, some v =>
    if normSq3 u = 0 ∨ normSq3 v = 0 then false
    else decide ((dot3 u v) ^ 2 > (1 - eps) ^ 2 * (normSq3 u * normSq3 v))
  | _, _ => false

/-- `Math.abs(referencePlane.signedDistanceTo(neighborVertices[0])) < ε`.
For a degenerate (zero cross product) seed plane Babylon yields normal `0`,
`d = -0`, so the signed distance is exactly `0 < ε`: `true`. -/
def isPointOnPlane (pos : List ℚ) (idx : List Nat) (seed g : Nat) : Bool :=
  match faceVertex pos idx seed 0, faceCross pos idx seed, faceVertex pos idx g 0 with
  | some p0, some u, some q0 =>
    if normSq3 u = 0 then true
    else decide ((dot3 u (sub3 q0 p0)) ^ 2 < eps ^ 2 * normSq3 u)
  | _, _, _ => false

/-- `isNormalAligned && isPointOnPlane`: the test a neighbour `g` must pass
against the seed face's reference plane to be enqueued. -/
def coplanarOK (pos : List ℚ) (idx : List Nat) (seed g : Nat) : Bool :=
  isNormalAligned pos idx seed g && isPointOnPlane pos idx seed g

/-! ### Edge keys and sightings

`const faceCount = indices.length / 3` followed by `faceId < faceCount`
iterates integer `faceId` with `3 * faceId < indices.length`, i.e. over
`⌈length/3⌉` faces — a trailing partial face of a malformed buffer is
processed too, its missing entries reading `undefined`. -/

/-- Number of loop iterations of the adjacency builders:
`#{f | 3f < indices.length} = ⌈indices.length / 3⌉`. -/
def numFaces (idx : List Nat) : Nat := (idx.length + 2) / 3

/-- An edge key: the canonicalised pair behind the JS string
`` `${v1}-${v2}` ``.  Decimal printing is injective and `undefined` prints
as the fixed text `undefined`, so the pair is a faithful key. -/
abbrev EdgeKey := Option Nat × Option Nat

/-- JS `<` on two vertex reads: `undefined` compares false both ways. -/
def jsLt : Option Nat → Option Nat → Bool
  | some a, some b => decide (a < b)
  | _, _ => false

/-- `v1 < v2 ? v1-v2 : v2-v1`. -/
def canonKey (u v : Option Nat) : EdgeKey := if jsLt u v then (u, v) else (v, u)

/-- The three canonical edge keys of face `f`, in the order the inner loop
produces them: (i0,i1), (i1,i2), (i2,i0). -/
def faceEdgeKeys (idx : List Nat) (f : Nat) : List EdgeKey :=
  [canonKey (vertIndex idx f 0) (vertIndex idx f 1),
   canonKey (vertIndex idx f 1) (vertIndex idx f 2),
   canonKey (vertIndex idx f 2) (vertIndex idx f 0)]

/-- The chronological sequence of `(edge key, face)` sightings produced by
the two nested loops of every `_buildAdjacencyList`. -/
def edgeSightings (idx : List Nat) : List (EdgeKey × Nat) :=
  (List.range (numFaces idx)).flatMap fun f => (faceEdgeKeys idx f).map fun k => (k, f)

/-- All faces that sighted key `k`, in sighting order (the JS
`edgeToFaceMap.get(edgeKey)` array of `SelectionManager`). -/
def groupOf (s : List (EdgeKey × Nat)) (k : EdgeKey) : List Nat :=
  (s.filter fun e => e.1 = k).map fun e => e.2

/-! ### MaterialLibrary/HighlightManager builder: link on later sightings

`edgeToFace` keeps the *first* face seen under a key and is never updated,
so every later sighter is linked bidirectionally to that first face.  We
record the links as the chronological list of directed pushes
`(face whose list got pushed, pushed neighbour)`; the JS `Map` of arrays is
recovered by filtering on the first component. -/

def updKey (m : EdgeKey → Option Nat) (k : EdgeKey) (f : Nat) : EdgeKey → Option Nat :=
  fun k' => if k' = k then some f else m k'

/-- The fold of the `MaterialLibrary._buildAdjacencyList` loop body over the
sightings: on a hit, push `(faceId, otherFaceId)` then `(otherFaceId,
faceId)`; on a miss, record the first sighter. -/
def fsLinks (m : EdgeKey → Option Nat) : List (EdgeKey × Nat) → List (Nat × Nat)
  | [] => []
  | (k, f) :: rest =>
    match m k with
    | some a => (f, a) :: (a, f) :: fsLinks m rest
    | none => fsLinks (updKey m k f) rest

/-- `MaterialLibrary._buildAdjacencyList`: the directed link pushes. -/
def adjLinksML (idx : List Nat) : List (Nat × Nat) :=
  fsLinks (fun _ => none) (edgeSightings idx)

/-- `MaterialLibrary._buildAdjacencyList(mesh).get(f) || []`. -/
def adjacencyML (idx : List Nat) (f : Nat) : List Nat :=
  ((adjLinksML idx).filter fun p => p.1 = f).map fun p => p.2

/-- `HighlightManager._buildAdjacencyList` is line-for-line the same
algorithm as `MaterialLibrary`'s (first-sighting linking). -/
def adjLinksHM (idx : List Nat) : List (Nat × Nat) :=
  fsLinks (fun _ => none) (edgeSightings idx)

/-- `HighlightManager._buildAdjacencyList(mesh).get(f) || []`. -/
def adjacencyHM (idx : List Nat) (f : Nat) : List Nat :=
  ((adjLinksHM idx).filter fun p => p.1 = f).map fun p => p.2

/-! ### SelectionManager builder: collect groups, link exact pairs -/

/-- Keys in first-occurrence order: JS `Map` iteration order of
`edgeToFaceMap`. -/
def keysFirstOccur : List EdgeKey → List EdgeKey
  | [] => []
  | k :: rest => k :: (keysFirstOccur rest).filter fun k' => k' ≠ k

/-- `SelectionManager._buildAdjacencyList`: for each key whose group has
exactly two faces, push `(f1,f2)` and `(f2,f1)`. -/
def pairLinks (s : List (EdgeKey × Nat)) : List (Nat × Nat) :=
  (keysFirstOccur (s.map fun e => e.1)).flatMap fun k =>
    match groupOf s k with
    | [a, b] => [(a, b), (b, a)]
    | _ => []

def adjLinksSM (idx : List Nat) : List (Nat × Nat) :=
  pairLinks (edgeSightings idx)

/-- `SelectionManager._buildAdjacencyList(mesh).get(f) || []`. -/
def adjacencySM (idx : List Nat) (f : Nat) : List Nat :=
  ((adjLinksSM idx).filter fun p => p.1 = f).map fun p => p.2

/-! ### The coplanar BFS (`_findCoplanarConnectedFaces`)

All three copies run the same search: pop the queue head, add it to
`coplanarFaces`, and for each adjacency neighbour that is not yet visited,
mark it visited and enqueue it exactly when it passes `coplanarOK` against
the *seed's* reference plane (the plane is computed once, before the loop,
and never recomputed).  The JS `while` loop terminates because every
enqueued face was freshly marked visited; we supply explicit fuel
`2 * indices.length + 3`, proved sufficient below. -/

/-- The inner `for (const neighborFaceId of neighbors)` loop: threads the
visited set and the list of enqueued faces. -/
def visitNeighbors (P : Nat → Bool) (nbrs : List Nat) (vis : Finset Nat) (qa : List Nat) :
    Finset Nat × List Nat :=
  nbrs.foldl
    (fun s n =>
      if n ∈ s.1 then s else (insert n s.1, if P n then s.2 ++ [n] else s.2))
    (vis, qa)

/-- The outer `while (queue.length > 0)` loop. -/
def bfsAux (adj : Nat → List Nat) (P : Nat → Bool) :
    Nat → List Nat → Finset Nat → Finset Nat → Finset Nat
  | 0, _, _, res => res
  | _ + 1, [], _, res => res
  | fuel + 1, c :: q, vis, res =>
    let vp := visitNeighbors P (adj c) vis []
    bfsAux adj P fuel (q ++ vp.2) vp.1 (insert c res)

/-- `_findCoplanarConnectedFaces(mesh, startFaceId)` (identical in
`MaterialLibrary`, `HighlightManager` and `SelectionManager`): BFS from the
seed over the first-sighting adjacency, filtered by the fixed seed-plane
coplanarity test. -/
def findCoplanarRegion (pos : List ℚ) (idx : List Nat) (seed : Nat) : Finset Nat :=
  bfsAux (adjacencyML idx) (coplanarOK pos idx seed) (2 * idx.length + 3) [seed] {seed} ∅

/-- Nodes reachable from `seed` in the graph `adj` through nodes passing
the filter `P`: the seed is reachable unconditionally, and one may follow
an adjacency edge into any node passing `P`. -/
inductive ReachAdj (adj : Nat → List Nat) (P : Nat → Bool) (seed : Nat) : Nat → Prop
  | seed : ReachAdj adj P seed seed
  | step {x y : Nat} : ReachAdj adj P seed x → y ∈ adj x → P y = true →
      ReachAdj adj P seed y

/-- Faces reachable from the seed by walking `MaterialLibrary` adjacency
edges through faces that pass the seed-plane coplanarity test — the
predicate is fixed to the *original* seed's reference plane along the whole
walk. -/
def ReachCop (pos : List ℚ) (idx : List Nat) (seed : Nat) : Nat → Prop :=
  ReachAdj (adjacencyML idx) (coplanarOK pos idx seed) seed

/-! ### The Face Partition Store (`mesh._faceMaterials`)

A JS `Map<faceId, materialName>` in insertion order, embedded as an
association list with unique keys.  `set` replaces the entry in place when
the key is present (for a unique-keyed list, replacing every matching entry
is the same thing) and appends otherwise; `delete` removes the entry;
`get` returns the value of the first matching entry. -/

abbrev FaceMaterials := List (Nat × String)

def jsMapSet (m : FaceMaterials) (k : Nat) (v : String) : FaceMaterials :=
  if m.any fun e => e.1 = k then
    m.map fun e => if e.1 = k then (k, v) else e
  else m ++ [(k, v)]

def jsMapDelete (m : FaceMaterials) (k : Nat) : FaceMaterials :=
  m.filter fun e => e.1 ≠ k

/-- `mesh._faceMaterials.get(faceId)`: the region label owning a face. -/
def regionOf (m : FaceMaterials) (f : Nat) : Option String :=
  (m.find? fun e => e.1 = f).map fun e => e.2

/-- The face ids currently mapped to label `L` (the group built for `L` by
`_rebuildSubMeshes` when it walks `mesh._faceMaterials`). -/
def facesOfLabel (m : FaceMaterials) (L : String) : List Nat :=
  (m.filter fun e => e.2 = L).map fun e => e.1

/-- The store mutation of `applyMaterialToFaces`:
`connectedFaces.forEach(faceId => mesh._faceMaterials.set(faceId, materialName))`. -/
def assignFaces (m : FaceMaterials) (faceIds : List Nat) (L : String) : FaceMaterials :=
  faceIds.foldl (fun m f => jsMapSet m f L) m

/-- The store mutation of `removeFaceMaterials`:
`faceIds.forEach(faceId => mesh._faceMaterials.delete(faceId))`. -/
def unassignFaces (m : FaceMaterials) (faceIds : List Nat) : FaceMaterials :=
  faceIds.foldl jsMapDelete m

/-- One caller-visible mutation of the store. -/
inductive StoreOp
  | assign (faceIds : List Nat) (label : String)
  | unassign (faceIds : List Nat)
  | clear

def applyOp (m : FaceMaterials) : StoreOp → FaceMaterials
  | .assign S L => assignFaces m S L
  | .unassign S => unassignFaces m S
  | .clear => []

/-- Run a sequence of store operations from the store's initial (empty)
state — `mesh._faceMaterials` starts as `new Map()`. -/
def runOps (ops : List StoreOp) : FaceMaterials :=
  ops.foldl applyOp []

/-! ### Contiguous ranges (`_createSubMeshForFaces` / `_groupContinuousIndices`) -/

/-- The loop of `_groupContinuousIndices` after the first element has seeded
`currentGroup`: `cur` is the group being grown, `prev` the previously seen
id. -/
def groupRun (cur : List Nat) (prev : Nat) : List Nat → List (List Nat)
  | [] => [cur]
  | y :: ys =>
    if y = prev + 1 then groupRun (cur ++ [y]) y ys
    else cur :: groupRun [y] y ys

/-- `MaterialLibrary._groupContinuousIndices(faceIds)`. -/
def groupContinuousIndices : List Nat → List (List Nat)
  | [] => []
  | x :: xs => groupRun [x] x xs

/-- `[...faceIds].sort((a, b) => a - b)` applied to the faces of a label. -/
def sortedFacesOf (m : FaceMaterials) (L : String) : List Nat :=
  (facesOfLabel m L).mergeSort (· ≤ ·)

/-- The contiguous face-id runs `_createSubMeshForFaces` derives for a
label: sort the label's faces ascending, then group consecutive runs. -/
def contiguousRanges (m : FaceMaterials) (L : String) : List (List Nat) :=
  groupContinuousIndices (sortedFacesOf m L)

/-! ### Sub-geometry extraction (`HighlightManager._createMeshFromFaces`)

Vertices are deduplicated by `vertexMap` keyed on the *original vertex
index* (`const vertexKey = originalVertexIndex`); positions, normals and
UVs are copied for each fresh key; the local index buffer is remapped
through the key map.  A face id beyond the index buffer reads the key
`undefined` (a perfectly good JS `Map` key), hence keys are `Option Nat`. -/

structure SubGeom where
  vertexMap : List (Option Nat × Nat)
  counter : Nat
  newPositions : List (Option ℚ)
  newNormals : List (Option ℚ)
  newUVs : List (Option ℚ)
  newIndices : List Nat
  deriving DecidableEq, Repr

def SubGeom.empty : SubGeom := ⟨[], 0, [], [], [], []⟩

def keyLookup (vm : List (Option Nat × Nat)) (k : Option Nat) : Option Nat :=
  (vm.find? fun e => e.1 = k).map fun e => e.2

/-- The three position reads of `Vector3.FromArray(positions, v * 3)` for a
fresh vertex, `undefined` for an `undefined` key (reads at `NaN`). -/
def posReadsOf (pos : List ℚ) : Option Nat → List (Option ℚ)
  | none => [none, none, none]
  | some v => [pos.get? (3 * v), pos.get? (3 * v + 1), pos.get? (3 * v + 2)]

/-- Normal reads, copied only when a normal buffer is present. -/
def nrmReadsOf : Option (List ℚ) → Option Nat → List (Option ℚ)
  | none, _ => []
  | some _, none => [none, none, none]
  | some ns, some v => [ns.get? (3 * v), ns.get? (3 * v + 1), ns.get? (3 * v + 2)]

/-- UV reads, copied only when a UV buffer is present. -/
def uvReadsOf : Option (List ℚ) → Option Nat → List (Option ℚ)
  | none, _ => []
  | some _, none => [none, none]
  | some us, some v => [us.get? (2 * v), us.get? (2 * v + 1)]

/-- Process one corner (`for (let i = 0; i < 3; i++)` body): dedup lookup,
fresh-vertex copy of position/normal/uv, push of the remapped index. -/
def extractCorner (pos : List ℚ) (idx : List Nat) (nrm uv : Option (List ℚ))
    (g : SubGeom) (f i : Nat) : SubGeom :=
  match keyLookup g.vertexMap (idx.get? (3 * f + i)) with
  | some nvi => { g with newIndices := g.newIndices ++ [nvi] }
  | none =>
    { vertexMap := g.vertexMap ++ [(idx.get? (3 * f + i), g.counter)]
      counter := g.counter + 1
      newPositions := g.newPositions ++ posReadsOf pos (idx.get? (3 * f + i))
      newNormals := g.newNormals ++ nrmReadsOf nrm (idx.get? (3 * f + i))
      newUVs := g.newUVs ++ uvReadsOf uv (idx.get? (3 * f + i))
      newIndices := g.newIndices ++ [g.counter] }

/-- `HighlightManager._createMeshFromFaces`: fold the corner body over every
face of `faceIds` and its three corners. -/
def createMeshFromFaces (pos : List ℚ) (idx : List Nat) (nrm uv : Option (List ℚ))
    (faceIds : List Nat) : SubGeom :=
  faceIds.foldl
    (fun g f => [0, 1, 2].foldl (fun g i => extractCorner pos idx nrm uv g f i) g)
    SubGeom.empty

/-! ### Error-signalling surface

`GeomError` names the two error kinds the specification assigns to the
core.  The JS bodies of `_buildAdjacencyList`, `_findCoplanarConnectedFaces`
and the `_faceMaterials` mutations contain no `throw` and no range
validation whatsoever — array reads out of range yield `undefined`, `Map`
operations are total — so the observable outcome of every call is a normal
return, embedded as `Except.ok` of the returned value. -/

inductive GeomError
  | invalidGeometry
  | invalidFaceId
  deriving DecidableEq, Repr

/-- Observable outcome of `_buildAdjacencyList(mesh)`: always a normal
return of the adjacency (there is no validation branch in the body). -/
def buildAdjacencyRun (idx : List Nat) : Except GeomError (List (Nat × Nat)) :=
  .ok (adjLinksML idx)

/-- Observable outcome of `_findCoplanarConnectedFaces(mesh, seed)`: always
a normal return of the face set (no validation branch in the body). -/
def findCoplanarRun (pos : List ℚ) (idx : List Nat) (seed : Nat) :
    Except GeomError (Finset Nat) :=
  .ok (findCoplanarRegion pos idx seed)

/-- Observable outcome of the store mutation of `applyMaterialToFaces` on a
batch of face ids: always a normal return of the updated store. -/
def assignFacesRun (m : FaceMaterials) (faceIds : List Nat) (L : String) :
    Except GeomError FaceMaterials :=
  .ok (assignFaces m faceIds L)

/-- The keys of the store are pairwise distinct. -/
def keysNodup (m : FaceMaterials) : Prop := (m.map fun e => e.1).Nodup

/-- Two adjacent groups are separated by a genuine gap: the last id of the
earlier group is not the immediate predecessor of the first id of the later
one (indeed smaller by at least 2). -/
def GapBetween (g1 g2 : List Nat) : Prop :=
  ∀ a ∈ g1.getLast?, ∀ b ∈ g2.head?, a + 1 < b

/-- Link contribution of one key, given what the first-sighting map already
holds for it: a key the map already resolves to `a` links its single
remaining sighter `f` to `a`; a fresh key with exactly two sighters links
them pairwise; every other multiplicity pattern of a ≤2-manifold input
contributes nothing. -/
def pairOfM : Option Nat → List Nat → List (Nat × Nat)
  | some a, [f] => [(f, a), (a, f)]
  | none, [a, b] => [(a, b), (b, a)]
  | _, _ => []

/-! ### Concrete meshes used in witnesses and counterexamples -/

/-- One triangle in the plane z = 0. -/
def posTri : List ℚ := [0, 0, 0, 1, 0, 0, 0, 1, 0]

def idxTri : List Nat := [0, 1, 2]

/-- A flat unit square: two coplanar triangles sharing the edge (1,2). -/
def posSq : List ℚ := [0, 0, 0, 1, 0, 0, 0, 1, 0, 1, 1, 0]

def idxSq : List Nat := [0, 1, 2, 2, 1, 3]

/-- Non-manifold buffer: the edge (0,1) is shared by four faces and the
edge (1,2) by two, so face 0 collects four adjacency entries. -/
def idxNM : List Nat := [0, 1, 2, 0, 1, 3, 0, 1, 4, 0, 1, 5, 1, 2, 6]

/-- A malformed buffer: length 4 is not a multiple of 3. -/
def idxBad : List Nat := [0, 1, 2, 3]

/-- Vertices 0 and 1 sit at the same position but have different indices. -/
def posDup : List ℚ := [0, 0, 0, 0, 0, 0, 1, 0, 0]

/-! ## Lemmas about the neighbour-visiting fold -/

lemma visitNeighbors_nil (P : Nat → Bool) (vis : Finset Nat) (qa : List Nat) :
    visitNeighbors P [] vis qa = (vis, qa) := rfl

lemma visitNeighbors_cons (P : Nat → Bool) (n : Nat) (nbrs : List Nat)
    (vis : Finset Nat) (qa : List Nat) :
    visitNeighbors P (n :: nbrs) vis qa =
      if n ∈ vis then visitNeighbors P nbrs vis qa
      else visitNeighbors P nbrs (insert n vis) (if P n then qa ++ [n] else qa) := by
  simp only [visitNeighbors, List.foldl_cons]
  by_cases h : n ∈ vis <;> simp [h]

lemma visit_subset (P : Nat → Bool) (nbrs : List Nat) :
    ∀ (vis : Finset Nat) (qa : List Nat), vis ⊆ (visitNeighbors P nbrs vis qa).1 := by
  induction nbrs with
  | nil => intro vis qa; simp [visitNeighbors_nil]
  | cons n nbrs ih =>
    intro vis qa
    rw [visitNeighbors_cons]
    by_cases h : n ∈ vis
    · simpa [h] using ih vis qa
    · rw [if_neg h]
      intro x hx
      exact ih _ _ (Finset.mem_insert_of_mem hx)

lemma visit_mem_fst (P : Nat → Bool) (nbrs : List Nat) :
    ∀ (vis : Finset Nat) (qa : List Nat) (y : Nat),
      y ∈ (visitNeighbors P nbrs vis qa).1 → y ∈ vis ∨ y ∈ nbrs := by
  induction nbrs with
  | nil => intro vis qa y hy; rw [visitNeighbors_nil] at hy; exact Or.inl hy
  | cons n nbrs ih =>
    intro vis qa y hy
    rw [visitNeighbors_cons] at hy
    by_cases h : n ∈ vis
    · rw [if_pos h] at hy
      rcases ih _ _ _ hy with h' | h'
      · exact Or.inl h'
      · exact Or.inr (List.mem_cons_of_mem _ h')
    · rw [if_neg h] at hy
      rcases ih _ _ _ hy with h' | h'
      · rcases Finset.mem_insert.mp h' with rfl | h''
        · exact Or.inr (List.mem_cons_self _ _)
        · exact Or.inl h''
      · exact Or.inr (List.mem_cons_of_mem _ h')

lemma visit_nbrs_mem (P : Nat → Bool) (nbrs : List Nat) :
    ∀ (vis : Finset Nat) (qa : List Nat) (y : Nat),
      y ∈ nbrs → y ∈ (visitNeighbors P nbrs vis qa).1 := by
  induction nbrs with
  | nil => intro vis qa y hy; simp at hy
  | cons n nbrs ih =>
    intro vis qa y hy
    rw [visitNeighbors_cons]
    by_cases h : n ∈ vis
    · rw [if_pos h]
      rcases List.mem_cons.mp hy with rfl | hy'
      · exact visit_subset P nbrs vis qa h
      · exact ih vis qa y hy'
    · rw [if_neg h]
      rcases List.mem_cons.mp hy with rfl | hy'
      · exact visit_subset P nbrs _ _ (Finset.mem_insert_self _ _)
      · exact ih _ _ _ hy'

lemma visit_mem_snd (P : Nat → Bool) (nbrs : List Nat) :
    ∀ (vis : Finset Nat) (qa : List Nat) (y : Nat),
      y ∈ (visitNeighbors P nbrs vis qa).2 →
      y ∈ qa ∨ (y ∈ nbrs ∧ P y = true ∧ y ∈ (visitNeighbors P nbrs vis qa).1) := by
  induction nbrs with
  | nil => intro vis qa y hy; rw [visitNeighbors_nil] at hy; exact Or.inl hy
  | cons n nbrs ih =>
    intro vis qa y hy
    rw [visitNeighbors_cons] at hy ⊢
    by_cases h : n ∈ vis
    · rw [if_pos h] at hy ⊢
      rcases ih _ _ _ hy with h' | ⟨h1, h2, h3⟩
      · exact Or.inl h'
      · exact Or.inr ⟨List.mem_cons_of_mem _ h1, h2, h3⟩
    · rw [if_neg h] at hy ⊢
      by_cases hp : P n = true
      · rw [if_pos hp] at hy ⊢
        rcases ih _ _ _ hy with h' | ⟨h1, h2, h3⟩
        · rcases List.mem_append.mp h' with h'' | h''
          · exact Or.inl h''
          · rcases List.mem_singleton.mp h''
            exact Or.inr ⟨List.mem_cons_self _ _, hp,
              visit_subset P nbrs _ _ (Finset.mem_insert_self _ _)⟩
        · exact Or.inr ⟨List.mem_cons_of_mem _ h1, h2, h3⟩
      · rw [if_neg hp] at hy ⊢
        rcases ih _ _ _ hy with h' | ⟨h1, h2, h3⟩
        · exact Or.inl h'
        · exact Or.inr ⟨List.mem_cons_of_mem _ h1, h2, h3⟩

lemma visit_snd_sub (P : Nat → Bool) (nbrs : List Nat) :
    ∀ (vis : Finset Nat) (qa : List Nat) (y : Nat),
      y ∈ qa → y ∈ (visitNeighbors P nbrs vis qa).2 := by
  induction nbrs with
  | nil => intro vis qa y hy; rw [visitNeighbors_nil]; exact hy
  | cons n nbrs ih =>
    intro vis qa y hy
    rw [visitNeighbors_cons]
    by_cases h : n ∈ vis
    · rw [if_pos h]; exact ih _ _ _ hy
    · rw [if_neg h]
      by_cases hp : P n = true
      · rw [if_pos hp]; exact ih _ _ _ (List.mem_append_left _ hy)
      · rw [if_neg hp]; exact ih _ _ _ hy

lemma visit_push (P : Nat → Bool) (nbrs : List Nat) :
    ∀ (vis : Finset Nat) (qa : List Nat) (y : Nat),
      y ∈ (visitNeighbors P nbrs vis qa).1 → y ∉ vis → P y = true →
      y ∈ (visitNeighbors P nbrs vis qa).2 := by
  induction nbrs with
  | nil =>
    intro vis qa y hy hnv _
    rw [visitNeighbors_nil] at hy
    exact absurd hy hnv
  | cons n nbrs ih =>
    intro vis qa y hy hnv hp
    rw [visitNeighbors_cons] at hy ⊢
    by_cases h : n ∈ vis
    · rw [if_pos h] at hy ⊢
      exact ih _ _ _ hy hnv hp
    · rw [if_neg h] at hy ⊢
      by_cases hyn : y = n
      · subst hyn
        rw [if_pos hp]
        have : y ∈ (qa ++ [y]) := List.mem_append_right _ (List.mem_singleton_self _)
        exact visit_snd_sub P nbrs _ _ _ this
      · have hnv' : y ∉ insert n vis := by
          simp [Finset.mem_insert, hyn, hnv]
        exact ih _ _ _ hy hnv' hp

lemma visit_card (P : Nat → Bool) (nbrs : List Nat) :
    ∀ (vis : Finset Nat) (qa : List Nat),
      (visitNeighbors P nbrs vis qa).2.length + vis.card ≤
        qa.length + (visitNeighbors P nbrs vis qa).1.card := by
  induction nbrs with
  | nil => intro vis qa; rw [visitNeighbors_nil]
  | cons n nbrs ih =>
    intro vis qa
    rw [visitNeighbors_cons]
    by_cases h : n ∈ vis
    · rw [if_pos h]; exact ih vis qa
    · rw [if_neg h]
      have hcard : (insert n vis).card = vis.card + 1 := Finset.card_insert_of_not_mem h
      by_cases hp : P n = true
      · rw [if_pos hp]
        have h1 := ih (insert n vis) (qa ++ [n])
        rw [hcard] at h1
        simp only [List.length_append, List.length_singleton] at h1
        omega
      · rw [if_neg hp]
        have h1 := ih (insert n vis) qa
        rw [hcard] at h1
        omega

/-! ## Faces occurring in the adjacency are genuine loop faces -/

lemma mem_edgeSightings_lt (idx : List Nat) :
    ∀ e ∈ edgeSightings idx, e.2 < numFaces idx := by
  intro e he
  simp only [edgeSightings, List.mem_flatMap, List.mem_map, List.mem_range] at he
  obtain ⟨f, hf, k, _, rfl⟩ := he
  exact hf

lemma fsLinks_bound (Q : Nat → Prop) :
    ∀ (s : List (EdgeKey × Nat)) (m : EdgeKey → Option Nat),
      (∀ k a, m k = some a → Q a) → (∀ e ∈ s, Q e.2) →
      ∀ p ∈ fsLinks m s, Q p.1 ∧ Q p.2 := by
  intro s
  induction s with
  | nil => intro m _ _ p hp; simp [fsLinks] at hp
  | cons e rest ih =>
    obtain ⟨k, f⟩ := e
    intro m hm hs p hp
    have hf : Q f := hs (k, f) (List.mem_cons_self _ _)
    have hs' : ∀ e ∈ rest, Q e.2 := fun e he => hs e (List.mem_cons_of_mem _ he)
    simp only [fsLinks] at hp
    cases hmk : m k with
    | some a =>
      rw [hmk] at hp
      have ha : Q a := hm k a hmk
      rcases List.mem_cons.mp hp with rfl | hp'
      · exact ⟨hf, ha⟩
      · rcases List.mem_cons.mp hp' with rfl | hp''
        · exact ⟨ha, hf⟩
        · exact ih m hm hs' p hp''
    | none =>
      rw [hmk] at hp
      refine ih (updKey m k f) ?_ hs' p hp
      intro k' a ha
      by_cases hk : k' = k
      · subst hk
        have haf : f = a := by simpa [updKey] using ha
        exact haf ▸ hf
      · exact hm k' a (by simpa [updKey, hk] using ha)

lemma adjacencyML_lt (idx : List Nat) (x y : Nat) (hy : y ∈ adjacencyML idx x) :
    y < numFaces idx := by
  simp only [adjacencyML, List.mem_map, List.mem_filter] at hy
  obtain ⟨p, ⟨hp, _⟩, rfl⟩ := hy
  exact (fsLinks_bound (· < numFaces idx) _ _ (fun _ _ h => by simp at h)
    (mem_edgeSightings_lt idx) p hp).2

/-! ## BFS correctness: the result is the filtered reachable set -/

lemma bfsAux_nil (adj : Nat → List Nat) (P : Nat → Bool) (fuel : Nat)
    (vis res : Finset Nat) : bfsAux adj P (fuel + 1) [] vis res = res := rfl

lemma bfsAux_cons (adj : Nat → List Nat) (P : Nat → Bool) (fuel c : Nat)
    (q : List Nat) (vis res : Finset Nat) :
    bfsAux adj P (fuel + 1) (c :: q) vis res =
      bfsAux adj P fuel (q ++ (visitNeighbors P (adj c) vis []).2)
        (visitNeighbors P (adj c) vis []).1 (insert c res) := rfl

lemma bfsAux_correct (adj : Nat → List Nat) (P : Nat → Bool) (seed N : Nat)
    (hadj : ∀ x y, y ∈ adj x → y < N) :
    ∀ (fuel : Nat) (q : List Nat) (vis res : Finset Nat),
      (∀ x ∈ res, ReachAdj adj P seed x) →
      (∀ x ∈ q, ReachAdj adj P seed x) →
      (∀ x ∈ vis, x ∈ res ∨ x ∈ q ∨ P x = false) →
      (∀ x ∈ res, x ∈ vis) →
      (∀ x ∈ q, x ∈ vis) →
      (∀ x ∈ res, ∀ y ∈ adj x, y ∈ vis) →
      vis ⊆ insert seed (Finset.range N) →
      (seed ∈ res ∨ seed ∈ q) →
      q.length + 2 * (N + 1) + 1 ≤ fuel + 2 * vis.card →
      ∀ g, (g ∈ bfsAux adj P fuel q vis res ↔ ReachAdj adj P seed g) := by
  intro fuel
  induction fuel with
  | zero =>
    intro q vis res _ _ _ _ _ _ hbound _ hfuel g
    exfalso
    have hv : vis.card ≤ N + 1 := by
      have h1 := Finset.card_le_card hbound
      have h2 := Finset.card_insert_le seed (Finset.range N)
      simp only [Finset.card_range] at h2
      omega
    omega
  | succ fuel ih =>
    intro q vis res hres hq hvis hresv hqv hclosed hbound hseed hfuel g
    cases q with
    | nil =>
      rw [bfsAux_nil]
      constructor
      · exact fun h => hres g h
      · intro hr
        induction hr with
        | seed =>
          rcases hseed with h | h
          · exact h
          · simp at h
        | step hx hyadj hPy ihx =>
          have hyvis := hclosed _ ihx _ hyadj
          rcases hvis _ hyvis with h | h | h
          · exact h
          · simp at h
          · rw [hPy] at h; cases h
    | cons c q' =>
      rw [bfsAux_cons]
      have hreachc : ReachAdj adj P seed c := hq c (List.mem_cons_self _ _)
      have hcvis : c ∈ vis := hqv c (List.mem_cons_self _ _)
      refine ih (q' ++ (visitNeighbors P (adj c) vis []).2)
        (visitNeighbors P (adj c) vis []).1 (insert c res) ?_ ?_ ?_ ?_ ?_ ?_ ?_ ?_ ?_ g
      · intro x hx
        rcases Finset.mem_insert.mp hx with rfl | hx'
        · exact hreachc
        · exact hres x hx'
      · intro x hx
        rcases List.mem_append.mp hx with hx' | hx'
        · exact hq x (List.mem_cons_of_mem _ hx')
        · rcases visit_mem_snd P (adj c) vis [] x hx' with h | ⟨h1, h2, _⟩
          · simp at h
          · exact ReachAdj.step hreachc h1 h2
      · intro x hx
        by_cases hxv : x ∈ vis
        · rcases hvis x hxv with h | h | h
          · exact Or.inl (Finset.mem_insert_of_mem h)
          · rcases List.mem_cons.mp h with rfl | h'
            · exact Or.inl (Finset.mem_insert_self _ _)
            · exact Or.inr (Or.inl (List.mem_append_left _ h'))
          · exact Or.inr (Or.inr h)
        · by_cases hPx : P x = true
          · exact Or.inr (Or.inl (List.mem_append_right _
              (visit_push P (adj c) vis [] x hx hxv hPx)))
          · exact Or.inr (Or.inr (by simpa using hPx))
      · intro x hx
        rcases Finset.mem_insert.mp hx with rfl | hx'
        · exact visit_subset P (adj x) vis [] hcvis
        · exact visit_subset P (adj c) vis [] (hresv x hx')
      · intro x hx
        rcases List.mem_append.mp hx with hx' | hx'
        · exact visit_subset P (adj c) vis [] (hqv x (List.mem_cons_of_mem _ hx'))
        · rcases visit_mem_snd P (adj c) vis [] x hx' with h | ⟨_, _, h3⟩
          · simp at h
          · exact h3
      · intro x hx y hy
        rcases Finset.mem_insert.mp hx with rfl | hx'
        · exact visit_nbrs_mem P (adj x) vis [] y hy
        · exact visit_subset P (adj c) vis [] (hclosed x hx' y hy)
      · intro x hx
        rcases visit_mem_fst P (adj c) vis [] x hx with h | h
        · exact hbound h
        · exact Finset.mem_insert_of_mem (Finset.mem_range.mpr (hadj c x h))
      · rcases hseed with h | h
        · exact Or.inl (Finset.mem_insert_of_mem h)
        · rcases List.mem_cons.mp h with rfl | h'
          · exact Or.inl (Finset.mem_insert_self _ _)
          · exact Or.inr (List.mem_append_left _ h')
      · have hvc := visit_card P (adj c) vis []
        simp only [List.length_nil, Nat.zero_add] at hvc
        simp only [List.length_cons] at hfuel
        simp only [List.length_append]
        omega

/-- `_findCoplanarConnectedFaces` returns exactly the faces reachable from
the seed through coplanarity-passing neighbours — the key characterisation
shared by the claims about the region finder. -/
lemma findCoplanar_mem_iff (pos : List ℚ) (idx : List Nat) (seed g : Nat) :
    g ∈ findCoplanarRegion pos idx seed ↔ ReachCop pos idx seed g := by
  refine bfsAux_correct (adjacencyML idx) (coplanarOK pos idx seed) seed (numFaces idx)
    (fun x y hy => adjacencyML_lt idx x y hy)
    (2 * idx.length + 3) [seed] {seed} ∅ ?_ ?_ ?_ ?_ ?_ ?_ ?_ ?_ ?_ g
  · intro x hx; simp at hx
  · intro x hx
    rcases List.mem_singleton.mp hx
    exact ReachAdj.seed
  · intro x hx
    rcases Finset.mem_singleton.mp hx
    exact Or.inr (Or.inl (List.mem_singleton_self _))
  · intro x hx; simp at hx
  · intro x hx
    rcases List.mem_singleton.mp hx
    exact Finset.mem_singleton_self _
  · intro x hx; simp at hx
  · intro x hx
    rcases Finset.mem_singleton.mp hx
    exact Finset.mem_insert_self _ _
  · exact Or.inr (List.mem_singleton_self _)
  · have hN : numFaces idx ≤ idx.length := by
      simp only [numFaces]; omega
    simp only [List.length_singleton, Finset.card_singleton]
    omega

/-! ## Partition store lemmas

A JS `Map` can never hold two entries with the same key; the embedding's
association list keeps that invariant through every store operation. -/

lemma keys_jsMapSet (m : FaceMaterials) (k : Nat) (v : String) :
    keysNodup m → keysNodup (jsMapSet m k v) := by
  intro h
  unfold jsMapSet
  by_cases hany : m.any fun e => e.1 = k
  · rw [if_pos hany]
    have : ((m.map fun e => if e.1 = k then (k, v) else e).map fun e => e.1) =
        m.map fun e => e.1 := by
      rw [List.map_map]
      refine List.map_congr_left fun e _ => ?_
      by_cases he : e.1 = k <;> simp [he]
    unfold keysNodup
    rw [this]
    exact h
  · rw [if_neg hany]
    unfold keysNodup
    rw [List.map_append]
    simp only [List.map_cons, List.map_nil]
    rw [List.nodup_append]
    refine ⟨h, List.nodup_singleton _, ?_⟩
    intro a ha hb
    rcases List.mem_singleton.mp hb with rfl
    obtain ⟨e, he, rfl⟩ := List.mem_map.mp ha
    exact hany (List.any_eq_true.mpr ⟨e, he, by simp⟩)

lemma keys_jsMapDelete (m : FaceMaterials) (k : Nat) :
    keysNodup m → keysNodup (jsMapDelete m k) := by
  intro h
  exact List.Nodup.sublist (List.Sublist.map _ (List.filter_sublist m)) h

lemma keysNodup_applyOp (m : FaceMaterials) (op : StoreOp) :
    keysNodup m → keysNodup (applyOp m op) := by
  intro h
  cases op with
  | assign S L =>
    simp only [applyOp, assignFaces]
    induction S generalizing m with
    | nil => exact h
    | cons f S ih => exact ih _ (keys_jsMapSet m f L h)
  | unassign S =>
    simp only [applyOp, unassignFaces]
    induction S generalizing m with
    | nil => exact h
    | cons f S ih => exact ih _ (keys_jsMapDelete m f h)
  | clear => simp only [applyOp]; exact List.nodup_nil

lemma keysNodup_runOps (ops : List StoreOp) : keysNodup (runOps ops) := by
  have h : ∀ (m : FaceMaterials), keysNodup m → keysNodup (ops.foldl applyOp m) := by
    induction ops with
    | nil => exact fun m h => h
    | cons op ops ih => exact fun m h => ih _ (keysNodup_applyOp m op h)
  exact h [] List.nodup_nil

/-- Unique-key stores associate at most one value to any key. -/
lemma value_eq_of_keysNodup (m : FaceMaterials) (f : Nat) (L1 L2 : String)
    (h : keysNodup m) (h1 : (f, L1) ∈ m) (h2 : (f, L2) ∈ m) : L1 = L2 := by
  induction m with
  | nil => simp at h1
  | cons e rest ih =>
    have hkey : e.1 ∉ rest.map fun e => e.1 := by
      have := h
      unfold keysNodup at this
      simp only [List.map_cons, List.nodup_cons] at this
      exact this.1
    have hrest : keysNodup rest := by
      have := h
      unfold keysNodup at this
      simp only [List.map_cons, List.nodup_cons] at this
      exact this.2
    rcases List.mem_cons.mp h1 with rfl | h1'
    · rcases List.mem_cons.mp h2 with h2' | h2'
      · exact ((Prod.ext_iff.mp h2').2).symm
      · exact absurd (List.mem_map.mpr ⟨(f, L2), h2', rfl⟩) hkey
    · rcases List.mem_cons.mp h2 with rfl | h2'
      · exact absurd (List.mem_map.mpr ⟨(f, L1), h1', rfl⟩) hkey
      · exact ih hrest h1' h2'

/-- Membership in a label's face list is exactly membership of the entry. -/
lemma mem_facesOfLabel (m : FaceMaterials) (L : String) (f : Nat) :
    f ∈ facesOfLabel m L ↔ (f, L) ∈ m := by
  unfold facesOfLabel
  constructor
  · intro h
    obtain ⟨e, he, rfl⟩ := List.mem_map.mp h
    have hf := List.mem_filter.mp he
    have h2 : e = (e.1, L) := by
      have : e.2 = L := by simpa using hf.2
      rw [← this]
    exact h2 ▸ hf.1
  · intro h
    exact List.mem_map.mpr ⟨(f, L), List.mem_filter.mpr ⟨h, by simp⟩, rfl⟩

/-! ## `regionOf` through the store operations -/

lemma regionOf_replace_ne (m : FaceMaterials) (g : Nat) (v : String) (f : Nat)
    (hfg : f ≠ g) :
    regionOf (m.map fun e => if e.1 = g then (g, v) else e) f = regionOf m f := by
  induction m with
  | nil => rfl
  | cons e rest ih =>
    simp only [List.map_cons]
    by_cases heg : e.1 = g
    · rw [if_pos heg]
      unfold regionOf
      rw [List.find?_cons_of_neg _ (by simp [Ne.symm hfg]),
        List.find?_cons_of_neg _ (by simp [heg ▸ Ne.symm hfg])]
      exact ih
    · rw [if_neg heg]
      unfold regionOf
      by_cases hef : e.1 = f
      · rw [List.find?_cons_of_pos _ (by simp [hef]),
          List.find?_cons_of_pos _ (by simp [hef])]
      · rw [List.find?_cons_of_neg _ (by simp [hef]),
          List.find?_cons_of_neg _ (by simp [hef])]
        exact ih

lemma regionOf_replace_self (m : FaceMaterials) (g : Nat) (v : String)
    (hany : (m.any fun e => e.1 = g) = true) :
    regionOf (m.map fun e => if e.1 = g then (g, v) else e) g = some v := by
  induction m with
  | nil => simp at hany
  | cons e rest ih =>
    simp only [List.map_cons]
    by_cases heg : e.1 = g
    · rw [if_pos heg]
      unfold regionOf
      rw [List.find?_cons_of_pos _ (by simp)]
      rfl
    · rw [if_neg heg]
      unfold regionOf
      rw [List.find?_cons_of_neg _ (by simp [heg])]
      refine ih ?_
      rcases List.any_eq_true.mp hany with ⟨x, hx, hpx⟩
      rcases List.mem_cons.mp hx with rfl | hx'
      · exact absurd (by simpa using hpx) heg
      · exact List.any_eq_true.mpr ⟨x, hx', hpx⟩

lemma regionOf_append_new (m : FaceMaterials) (g : Nat) (v : String) (f : Nat)
    (hany : (m.any fun e => e.1 = g) = false) :
    regionOf (m ++ [(g, v)]) f = if f = g then some v else regionOf m f := by
  induction m with
  | nil =>
    simp only [List.nil_append]
    unfold regionOf
    by_cases hfg : f = g
    · subst hfg
      rw [List.find?_cons_of_pos _ (by simp), if_pos rfl]
      rfl
    · rw [List.find?_cons_of_neg _ (by
        simp only [decide_eq_true_eq]
        exact Ne.symm hfg), if_neg hfg]
  | cons e rest ih =>
    simp only [List.any_cons, Bool.or_eq_false_iff] at hany
    have heg : ¬(e.1 = g) := by simpa using hany.1
    simp only [List.cons_append]
    unfold regionOf
    by_cases hef : e.1 = f
    · rw [List.find?_cons_of_pos _ (by simp [hef]),
        List.find?_cons_of_pos _ (by simp [hef])]
      rw [if_neg (by
        intro hfg
        exact heg (by rw [hef, hfg]))]
    · rw [List.find?_cons_of_neg _ (by simp [hef]),
        List.find?_cons_of_neg _ (by simp [hef])]
      exact ih hany.2

/-- The single crisp description of `Map.set` through `Map.get`. -/
lemma regionOf_jsMapSet (m : FaceMaterials) (g : Nat) (v : String) (f : Nat) :
    regionOf (jsMapSet m g v) f = if f = g then some v else regionOf m f := by
  unfold jsMapSet
  by_cases hany : (m.any fun e => e.1 = g) = true
  · rw [if_pos hany]
    by_cases hfg : f = g
    · subst hfg
      rw [if_pos rfl]
      exact regionOf_replace_self m f v hany
    · rw [if_neg hfg]
      exact regionOf_replace_ne m g v f hfg
  · rw [if_neg hany]
    exact regionOf_append_new m g v f (Bool.eq_false_iff.mpr hany)

/-- `assign` maps every face of the batch to the new label and leaves every
other face's owner unchanged. -/
lemma regionOf_assignFaces (S : List Nat) (L : String) :
    ∀ (m : FaceMaterials) (f : Nat),
      regionOf (assignFaces m S L) f = if f ∈ S then some L else regionOf m f := by
  induction S with
  | nil => intro m f; simp [assignFaces]
  | cons g S ih =>
    intro m f
    have hstep : assignFaces m (g :: S) L = assignFaces (jsMapSet m g L) S L := rfl
    rw [hstep, ih]
    by_cases hfS : f ∈ S
    · rw [if_pos hfS, if_pos (List.mem_cons_of_mem _ hfS)]
    · rw [if_neg hfS, regionOf_jsMapSet]
      by_cases hfg : f = g
      · subst hfg
        rw [if_pos rfl, if_pos (List.mem_cons_self _ _)]
      · rw [if_neg hfg, if_neg (by simp [hfg, hfS])]

/-- `delete` never touches entries with other keys. -/
lemma regionOf_jsMapDelete (m : FaceMaterials) (g f : Nat) :
    regionOf (jsMapDelete m g) f = if f = g then none else regionOf m f := by
  induction m with
  | nil => simp [jsMapDelete, regionOf, List.find?]
  | cons e rest ih =>
    unfold jsMapDelete at *
    by_cases heg : e.1 = g
    · rw [List.filter_cons_of_neg (by simp [heg])]
      rw [ih]
      by_cases hfg : f = g
      · rw [if_pos hfg, if_pos hfg]
      · rw [if_neg hfg, if_neg hfg]
        unfold regionOf
        rw [List.find?_cons_of_neg _ (by
          simp only [decide_eq_true_eq, heg]
          exact Ne.symm hfg)]
    · rw [List.filter_cons_of_pos (by simp [heg])]
      unfold regionOf
      by_cases hef : e.1 = f
      · rw [List.find?_cons_of_pos _ (by simp [hef]),
          List.find?_cons_of_pos _ (by simp [hef])]
        rw [if_neg (by
        intro hfg
        exact heg (by rw [hef, hfg]))]
      · rw [List.find?_cons_of_neg _ (by simp [hef]),
          List.find?_cons_of_neg _ (by simp [hef])]
        exact ih

lemma regionOf_unassignFaces (S : List Nat) :
    ∀ (m : FaceMaterials) (f : Nat),
      regionOf (unassignFaces m S) f = if f ∈ S then none else regionOf m f := by
  induction S with
  | nil => intro m f; simp [unassignFaces]
  | cons g S ih =>
    intro m f
    have hstep : unassignFaces m (g :: S) = unassignFaces (jsMapDelete m g) S := rfl
    rw [hstep, ih]
    by_cases hfS : f ∈ S
    · rw [if_pos hfS, if_pos (List.mem_cons_of_mem _ hfS)]
    · rw [if_neg hfS, regionOf_jsMapDelete]
      by_cases hfg : f = g
      · subst hfg
        rw [if_pos rfl, if_pos (List.mem_cons_self _ _)]
      · rw [if_neg hfg, if_neg (by simp [hfg, hfS])]

/-! ## Idempotence of assignment -/

lemma entry_jsMapSet (m : FaceMaterials) (k : Nat) (v : String) :
    ∀ e ∈ jsMapSet m k v, e.1 = k → e = (k, v) := by
  intro e he hek
  unfold jsMapSet at he
  by_cases hany : (m.any fun e => e.1 = k) = true
  · rw [if_pos hany] at he
    obtain ⟨e', _, rfl⟩ := List.mem_map.mp he
    by_cases h : e'.1 = k
    · rw [if_pos h]
    · rw [if_neg h] at hek ⊢
      exact absurd hek h
  · rw [if_neg hany] at he
    rcases List.mem_append.mp he with h | h
    · exfalso
      exact hany (List.any_eq_true.mpr ⟨e, h, by simp [hek]⟩)
    · exact List.mem_singleton.mp h

lemma mem_jsMapSet_of_ne (m : FaceMaterials) (k : Nat) (v : String) :
    ∀ e ∈ jsMapSet m k v, e.1 ≠ k → e ∈ m := by
  intro e he hek
  unfold jsMapSet at he
  by_cases hany : (m.any fun e => e.1 = k) = true
  · rw [if_pos hany] at he
    obtain ⟨e', he', rfl⟩ := List.mem_map.mp he
    by_cases h : e'.1 = k
    · rw [if_pos h] at hek ⊢
      exact absurd rfl hek
    · rw [if_neg h]
      exact he'
  · rw [if_neg hany] at he
    rcases List.mem_append.mp he with h | h
    · exact h
    · rcases List.mem_singleton.mp h with rfl
      exact absurd rfl hek

lemma contains_jsMapSet_self (m : FaceMaterials) (k : Nat) (v : String) :
    ((jsMapSet m k v).any fun e => e.1 = k) = true := by
  unfold jsMapSet
  by_cases hany : (m.any fun e => e.1 = k) = true
  · rw [if_pos hany]
    rcases List.any_eq_true.mp hany with ⟨e, he, hpe⟩
    refine List.any_eq_true.mpr ⟨(k, v), ?_, by simp⟩
    refine List.mem_map.mpr ⟨e, he, ?_⟩
    rw [if_pos (by simpa using hpe)]
  · rw [if_neg hany]
    exact List.any_eq_true.mpr ⟨(k, v), List.mem_append_right _ (List.mem_singleton_self _), by simp⟩

lemma contains_jsMapSet_mono (m : FaceMaterials) (k : Nat) (v : String) (f : Nat)
    (h : (m.any fun e => e.1 = f) = true) :
    ((jsMapSet m k v).any fun e => e.1 = f) = true := by
  rcases List.any_eq_true.mp h with ⟨e, he, hpe⟩
  have hef : e.1 = f := by simpa using hpe
  unfold jsMapSet
  by_cases hany : (m.any fun e => e.1 = k) = true
  · rw [if_pos hany]
    by_cases hek : e.1 = k
    · refine List.any_eq_true.mpr ⟨(k, v), List.mem_map.mpr ⟨e, he, by rw [if_pos hek]⟩, ?_⟩
      simp [← hek, hef]
    · exact List.any_eq_true.mpr ⟨e, List.mem_map.mpr ⟨e, he, by rw [if_neg hek]⟩, hpe⟩
  · rw [if_neg hany]
    exact List.any_eq_true.mpr ⟨e, List.mem_append_left _ he, hpe⟩

/-- Setting a key already mapped to the same value is a structural no-op. -/
lemma jsMapSet_id (m : FaceMaterials) (k : Nat) (v : String)
    (hc : (m.any fun e => e.1 = k) = true)
    (he : ∀ e ∈ m, e.1 = k → e = (k, v)) : jsMapSet m k v = m := by
  unfold jsMapSet
  rw [if_pos hc]
  have h1 : List.map (fun e => if e.1 = k then (k, v) else e) m = List.map id m := by
    refine List.map_congr_left fun e hem => ?_
    simp only [id_eq]
    by_cases h : e.1 = k
    · rw [if_pos h]
      exact (he e hem h).symm
    · rw [if_neg h]
  rw [h1, List.map_id]

/-- After `assignFaces`, every face of the batch has exactly the entry
`(f, L)` and it is present. -/
lemma assign_preserves (L : String) :
    ∀ (S : List Nat) (m : FaceMaterials) (f : Nat),
      (m.any fun e => e.1 = f) = true →
      (∀ e ∈ m, e.1 = f → e = (f, L)) →
      ((assignFaces m S L).any fun e => e.1 = f) = true ∧
        ∀ e ∈ assignFaces m S L, e.1 = f → e = (f, L) := by
  intro S
  induction S with
  | nil => exact fun m f hc he => ⟨hc, he⟩
  | cons g S ih =>
    intro m f hc he
    refine ih (jsMapSet m g L) f (contains_jsMapSet_mono m g L f hc) ?_
    intro e hem hef
    by_cases hfg : f = g
    · subst hfg
      exact entry_jsMapSet m f L e hem hef
    · exact he e (mem_jsMapSet_of_ne m g L e hem (fun h => hfg (hef.symm.trans h))) hef

lemma assign_entry (L : String) :
    ∀ (S : List Nat) (m : FaceMaterials) (f : Nat), f ∈ S →
      ((assignFaces m S L).any fun e => e.1 = f) = true ∧
        ∀ e ∈ assignFaces m S L, e.1 = f → e = (f, L) := by
  intro S
  induction S with
  | nil => intro m f hf; simp at hf
  | cons g S ih =>
    intro m f hf
    rcases List.mem_cons.mp hf with rfl | hf'
    · exact assign_preserves L S (jsMapSet m f L) f
        (contains_jsMapSet_self m f L) (entry_jsMapSet m f L)
    · exact ih (jsMapSet m g L) f hf'

lemma foldl_set_id (L : String) :
    ∀ (S : List Nat) (m : FaceMaterials),
      (∀ f ∈ S, (m.any fun e => e.1 = f) = true ∧ ∀ e ∈ m, e.1 = f → e = (f, L)) →
      assignFaces m S L = m := by
  intro S
  induction S with
  | nil => exact fun m _ => rfl
  | cons g S ih =>
    intro m h
    have hg := h g (List.mem_cons_self _ _)
    have hset : jsMapSet m g L = m := jsMapSet_id m g L hg.1 hg.2
    have hstep : assignFaces m (g :: S) L = assignFaces (jsMapSet m g L) S L := rfl
    rw [hstep, hset]
    exact ih m fun f hf => h f (List.mem_cons_of_mem _ hf)

/-- Re-assigning the same batch to the same label does not change the store
at all — not merely observably. -/
lemma assignFaces_idem (m : FaceMaterials) (S : List Nat) (L : String) :
    assignFaces (assignFaces m S L) S L = assignFaces m S L :=
  foldl_set_id L S (assignFaces m S L) fun f hf => assign_entry L S m f hf

/-! ## Grouping consecutive face ids -/

lemma groupRun_flatten : ∀ (ys cur : List Nat) (prev : Nat),
    (groupRun cur prev ys).flatten = cur ++ ys := by
  intro ys
  induction ys with
  | nil => intro cur prev; simp [groupRun]
  | cons y ys ih =>
    intro cur prev
    unfold groupRun
    by_cases h : y = prev + 1
    · rw [if_pos h, ih]
      simp
    · rw [if_neg h]
      simp only [List.flatten_cons, ih]
      simp

lemma groupCont_flatten (xs : List Nat) :
    (groupContinuousIndices xs).flatten = xs := by
  cases xs with
  | nil => rfl
  | cons x xs => simpa using groupRun_flatten xs [x] x

lemma groupRun_ne_nil : ∀ (ys cur : List Nat) (prev : Nat), cur ≠ [] →
    ∀ g ∈ groupRun cur prev ys, g ≠ [] := by
  intro ys
  induction ys with
  | nil =>
    intro cur prev hcur g hg
    rcases List.mem_singleton.mp hg with rfl
    exact hcur
  | cons y ys ih =>
    intro cur prev hcur g hg
    unfold groupRun at hg
    by_cases h : y = prev + 1
    · rw [if_pos h] at hg
      exact ih _ _ (by simp) g hg
    · rw [if_neg h] at hg
      rcases List.mem_cons.mp hg with rfl | hg'
      · exact hcur
      · exact ih _ _ (by simp) g hg'

lemma groupRun_chain : ∀ (ys cur : List Nat) (prev : Nat),
    cur.getLast? = some prev → List.Chain' (fun a b => b = a + 1) cur →
    ∀ g ∈ groupRun cur prev ys, List.Chain' (fun a b => b = a + 1) g := by
  intro ys
  induction ys with
  | nil =>
    intro cur prev _ hchain g hg
    rcases List.mem_singleton.mp hg with rfl
    exact hchain
  | cons y ys ih =>
    intro cur prev hlast hchain g hg
    unfold groupRun at hg
    by_cases h : y = prev + 1
    · rw [if_pos h] at hg
      refine ih (cur ++ [y]) y (by simp) ?_ g hg
      rw [List.chain'_append]
      refine ⟨hchain, List.chain'_singleton _, ?_⟩
      intro a ha b hb
      rw [hlast] at ha
      have ha' : prev = a := by simpa using ha
      have hb' : y = b := by simpa using hb
      subst ha'
      subst hb'
      exact h
    · rw [if_neg h] at hg
      rcases List.mem_cons.mp hg with rfl | hg'
      · exact hchain
      · exact ih [y] y rfl (List.chain'_singleton _) g hg'

lemma groupRun_head : ∀ (ys cur : List Nat) (prev : Nat), cur ≠ [] →
    ∃ g gs, groupRun cur prev ys = g :: gs ∧ g.head? = cur.head? := by
  intro ys
  induction ys with
  | nil => intro cur prev _; exact ⟨cur, [], rfl, rfl⟩
  | cons y ys ih =>
    intro cur prev hcur
    unfold groupRun
    by_cases h : y = prev + 1
    · rw [if_pos h]
      obtain ⟨g, gs, heq, hhd⟩ := ih (cur ++ [y]) y (by simp)
      refine ⟨g, gs, heq, ?_⟩
      rw [hhd]
      cases cur with
      | nil => exact absurd rfl hcur
      | cons c cur' => rfl
    · rw [if_neg h]
      exact ⟨cur, groupRun [y] y ys, rfl, rfl⟩

lemma groupRun_gaps : ∀ (ys cur : List Nat) (prev : Nat),
    List.Chain (· < ·) prev ys → cur.getLast? = some prev →
    List.Chain' GapBetween (groupRun cur prev ys) := by
  intro ys
  induction ys with
  | nil =>
    intro cur prev _ _
    exact List.chain'_singleton _
  | cons y ys ih =>
    intro cur prev hsort hlast
    have hlt : prev < y := (List.chain_cons.mp hsort).1
    have hrest : List.Chain (· < ·) y ys := (List.chain_cons.mp hsort).2
    unfold groupRun
    by_cases h : y = prev + 1
    · rw [if_pos h]
      exact ih (cur ++ [y]) y hrest (by simp)
    · rw [if_neg h]
      obtain ⟨g, gs, heq, hhd⟩ := groupRun_head ys [y] y (by simp)
      rw [heq, List.chain'_cons']
      constructor
      · intro b hb
        have hb' : g = b := by simpa using hb
        subst hb'
        intro a ha c hc
        rw [hlast] at ha
        have ha' : prev = a := by simpa using ha
        subst ha'
        rw [hhd] at hc
        have hc' : y = c := by simpa using hc
        subst hc'
        omega
      · rw [← heq]
        exact ih [y] y hrest rfl

/-! ## Linking structure of the first-sighting adjacency builder -/

lemma groupOf_cons (k' : EdgeKey) (f' : Nat) (s : List (EdgeKey × Nat)) (k : EdgeKey) :
    groupOf ((k', f') :: s) k =
      if k' = k then f' :: groupOf s k else groupOf s k := by
  unfold groupOf
  by_cases h : k' = k
  · rw [List.filter_cons_of_pos (by simpa using h), if_pos h]
    rfl
  · rw [List.filter_cons_of_neg (by simpa using h), if_neg h]

lemma groupOf_eq_nil (s : List (EdgeKey × Nat)) (k : EdgeKey) :
    groupOf s k = [] ↔ k ∉ s.map fun e => e.1 := by
  unfold groupOf
  rw [List.map_eq_nil_iff, List.filter_eq_nil_iff]
  constructor
  · intro h hk
    obtain ⟨e, he, hek⟩ := List.mem_map.mp hk
    exact h e he (by simpa using hek)
  · intro h e he hek
    exact h (List.mem_map.mpr ⟨e, he, by simpa using hek⟩)

lemma keysFirstOccur_nodup : ∀ (l : List EdgeKey), (keysFirstOccur l).Nodup := by
  intro l
  induction l with
  | nil => exact List.nodup_nil
  | cons k l ih =>
    rw [keysFirstOccur, List.nodup_cons]
    constructor
    · intro hk
      have hc := (List.mem_filter.mp hk).2
      simp at hc
    · exact List.Nodup.filter _ ih

lemma mem_keysFirstOccur : ∀ (l : List EdgeKey) (k : EdgeKey),
    k ∈ keysFirstOccur l ↔ k ∈ l := by
  intro l
  induction l with
  | nil => intro k; rfl
  | cons a l ih =>
    intro k
    rw [keysFirstOccur]
    constructor
    · intro hk
      rcases List.mem_cons.mp hk with rfl | hk'
      · exact List.mem_cons_self _ _
      · exact List.mem_cons_of_mem _ ((ih k).mp (List.mem_filter.mp hk').1)
    · intro hk
      rcases List.mem_cons.mp hk with rfl | hk'
      · exact List.mem_cons_self _ _
      · by_cases hka : k = a
        · subst hka
          exact List.mem_cons_self _ _
        · exact List.mem_cons_of_mem _
            (List.mem_filter.mpr ⟨(ih k).mpr hk', by simpa using hka⟩)

/-- Every sighter of a key after the first is linked (in both directions)
to the first sighter, whatever the key's total multiplicity — this is how
`edgeToFace` (never updated after the first sighting) distributes links. -/
lemma fsLinks_link :
    ∀ (s : List (EdgeKey × Nat)) (m : EdgeKey → Option Nat) (k : EdgeKey) (a f : Nat),
      ((m k = some a ∧ f ∈ groupOf s k) ∨
        (m k = none ∧ ∃ rest, groupOf s k = a :: rest ∧ f ∈ rest)) →
      (f, a) ∈ fsLinks m s ∧ (a, f) ∈ fsLinks m s := by
  intro s
  induction s with
  | nil =>
    intro m k a f h
    rcases h with ⟨_, hf⟩ | ⟨_, rest, hg, _⟩
    · simp [groupOf] at hf
    · simp [groupOf] at hg
  | cons e s ih =>
    obtain ⟨k', f'⟩ := e
    intro m k a f h
    rcases h with ⟨hma, hf⟩ | ⟨hmn, rest, hg, hf⟩
    · rw [groupOf_cons] at hf
      by_cases hk : k' = k
      · subst hk
        rw [if_pos rfl] at hf
        simp only [fsLinks, hma]
        rcases List.mem_cons.mp hf with rfl | hf'
        · exact ⟨List.mem_cons_self _ _,
            List.mem_cons_of_mem _ (List.mem_cons_self _ _)⟩
        · have := ih m k' a f (Or.inl ⟨hma, hf'⟩)
          exact ⟨List.mem_cons_of_mem _ (List.mem_cons_of_mem _ this.1),
            List.mem_cons_of_mem _ (List.mem_cons_of_mem _ this.2)⟩
      · rw [if_neg hk] at hf
        cases hmk' : m k' with
        | some a' =>
          simp only [fsLinks, hmk']
          have := ih m k a f (Or.inl ⟨hma, hf⟩)
          exact ⟨List.mem_cons_of_mem _ (List.mem_cons_of_mem _ this.1),
            List.mem_cons_of_mem _ (List.mem_cons_of_mem _ this.2)⟩
        | none =>
          simp only [fsLinks, hmk']
          refine ih (updKey m k' f') k a f (Or.inl ⟨?_, hf⟩)
          rw [updKey, if_neg (fun hkk => hk hkk.symm)]
          exact hma
    · rw [groupOf_cons] at hg
      by_cases hk : k' = k
      · subst hk
        rw [if_pos rfl] at hg
        have hfa : f' = a := (List.cons.injEq _ _ _ _ ▸ hg).1
        have hgs : groupOf s k' = rest := (List.cons.injEq _ _ _ _ ▸ hg).2
        simp only [fsLinks, hmn]
        refine ih (updKey m k' f') k' a f (Or.inl ⟨?_, ?_⟩)
        · rw [updKey, if_pos rfl, hfa]
        · rw [hgs]; exact hf
      · rw [if_neg hk] at hg
        cases hmk' : m k' with
        | some a' =>
          simp only [fsLinks, hmk']
          have := ih m k a f (Or.inr ⟨hmn, rest, hg, hf⟩)
          exact ⟨List.mem_cons_of_mem _ (List.mem_cons_of_mem _ this.1),
            List.mem_cons_of_mem _ (List.mem_cons_of_mem _ this.2)⟩
        | none =>
          simp only [fsLinks, hmk']
          refine ih (updKey m k' f') k a f (Or.inr ⟨?_, rest, hg, hf⟩)
          rw [updKey, if_neg (fun hkk => hk hkk.symm)]
          exact hmn

/-- Both directions of the link between a later sighter and the first
sighter are visible in the `MaterialLibrary` adjacency. -/
lemma adjacencyML_link (idx : List Nat) (k : EdgeKey) (a f : Nat) (rest : List Nat)
    (hg : groupOf (edgeSightings idx) k = a :: rest) (hf : f ∈ rest) :
    a ∈ adjacencyML idx f ∧ f ∈ adjacencyML idx a := by
  have h := fsLinks_link (edgeSightings idx) (fun _ => none) k a f
    (Or.inr ⟨rfl, rest, hg, hf⟩)
  unfold adjacencyML adjLinksML
  constructor
  · exact List.mem_map.mpr ⟨(f, a), List.mem_filter.mpr ⟨h.1, by simp⟩, rfl⟩
  · exact List.mem_map.mpr ⟨(a, f), List.mem_filter.mpr ⟨h.2, by simp⟩, rfl⟩

/-! ## Agreement of the two builder constructions on manifold input -/

lemma perm_cons_filter_ne :
    ∀ (l : List EdgeKey) (k : EdgeKey), l.Nodup → k ∈ l →
      l.Perm (k :: l.filter fun x => x ≠ k) := by
  intro l
  induction l with
  | nil => intro k _ hk; simp at hk
  | cons a l ih =>
    intro k hnd hk
    rcases List.mem_cons.mp hk with rfl | hk'
    · have hkl : k ∉ l := (List.nodup_cons.mp hnd).1
      rw [List.filter_cons_of_neg (by simp)]
      have hfl : (l.filter fun x => x ≠ k) = l :=
        List.filter_eq_self.mpr fun x hx => by
          simp only [decide_eq_true_eq]
          exact fun h => hkl (h ▸ hx)
      rw [hfl]
    · have hnd' := (List.nodup_cons.mp hnd).2
      have hak : a ≠ k := fun h => (List.nodup_cons.mp hnd).1 (h ▸ hk')
      rw [List.filter_cons_of_pos (by simpa using hak)]
      exact ((ih k hnd' hk').cons a).trans (List.Perm.swap k a _)

lemma pairOfM_none_eq (g : List Nat) :
    pairOfM none g = (match g with | [a, b] => [(a, b), (b, a)] | _ => []) := by
  match g with
  | [] => rfl
  | [_] => rfl
  | [_, _] => rfl
  | _ :: _ :: _ :: _ => rfl

lemma flatMap_congr_mem {α β : Type} (l : List α) (f g : α → List β)
    (h : ∀ a ∈ l, f a = g a) : l.flatMap f = l.flatMap g := by
  induction l with
  | nil => rfl
  | cons a l ih =>
    simp only [List.flatMap_cons]
    rw [h a (List.mem_cons_self _ _), ih fun a ha => h a (List.mem_cons_of_mem _ ha)]

lemma fsLinks_perm :
    ∀ (s : List (EdgeKey × Nat)) (m : EdgeKey → Option Nat),
      (∀ k, (groupOf s k).length + (if (m k).isSome then 1 else 0) ≤ 2) →
      (fsLinks m s).Perm ((keysFirstOccur (s.map fun e => e.1)).flatMap
        fun k => pairOfM (m k) (groupOf s k)) := by
  intro s
  induction s with
  | nil => intro m _; simp [fsLinks, keysFirstOccur]
  | cons e s ih =>
    obtain ⟨k, f⟩ := e
    intro m hman
    have hgk : groupOf ((k, f) :: s) k = f :: groupOf s k := by
      rw [groupOf_cons, if_pos rfl]
    have hgne : ∀ k', k' ≠ k → groupOf ((k, f) :: s) k' = groupOf s k' := by
      intro k' hk'
      rw [groupOf_cons, if_neg fun h => hk' h.symm]
    have hkeys : (keysFirstOccur (((k, f) :: s).map fun e => e.1)) =
        k :: (keysFirstOccur (s.map fun e => e.1)).filter fun x => x ≠ k := rfl
    rw [hkeys, List.flatMap_cons, hgk]
    cases hmk : m k with
    | some a =>
      have hlen : (f :: groupOf s k).length + 1 ≤ 2 := by
        have := hman k
        rw [hgk, hmk] at this
        simpa using this
      simp only [List.length_cons] at hlen
      have hnil : groupOf s k = [] := List.length_eq_zero.mp (by omega)
      have hknotin : k ∉ s.map fun e => e.1 := (groupOf_eq_nil s k).mp hnil
      have hfilter : ((keysFirstOccur (s.map fun e => e.1)).filter fun x => x ≠ k) =
          keysFirstOccur (s.map fun e => e.1) :=
        List.filter_eq_self.mpr fun x hx => by
          simp only [decide_eq_true_eq]
          intro h
          subst h
          exact hknotin ((mem_keysFirstOccur _ x).mp hx)
      rw [hfilter, hnil]
      have hstep : fsLinks m ((k, f) :: s) = (f, a) :: (a, f) :: fsLinks m s := by
        simp only [fsLinks, hmk]
      rw [hstep]
      have hman' : ∀ k', (groupOf s k').length + (if (m k').isSome then 1 else 0) ≤ 2 := by
        intro k'
        by_cases hk' : k' = k
        · subst hk'; rw [hnil, hmk]; simp
        · have := hman k'
          rw [hgne k' hk'] at this
          exact this
      have hcongr : ((keysFirstOccur (s.map fun e => e.1)).flatMap
            fun k' => pairOfM (m k') (groupOf ((k, f) :: s) k')) =
          (keysFirstOccur (s.map fun e => e.1)).flatMap
            fun k' => pairOfM (m k') (groupOf s k') := by
        refine flatMap_congr_mem _ _ _ fun k' hk' => ?_
        have hne : k' ≠ k := by
          intro h
          subst h
          exact hknotin ((mem_keysFirstOccur _ _).mp hk')
        rw [hgne k' hne]
      rw [hcongr]
      have hpa : pairOfM (some a) [f] = [(f, a), (a, f)] := rfl
      rw [hpa]
      exact ((ih m hman').cons _).cons _
    | none =>
      have hstep : fsLinks m ((k, f) :: s) = fsLinks (updKey m k f) s := by
        simp only [fsLinks, hmk]
      rw [hstep]
      have hman' : ∀ k', (groupOf s k').length +
          (if (updKey m k f k').isSome then 1 else 0) ≤ 2 := by
        intro k'
        by_cases hk' : k' = k
        · subst hk'
          have := hman k'
          rw [hgk, hmk] at this
          simp only [List.length_cons] at this
          rw [updKey, if_pos rfl]
          simpa using this
        · rw [updKey, if_neg hk']
          have := hman k'
          rw [hgne k' hk'] at this
          exact this
      have hperm := ih (updKey m k f) hman'
      cases hg : groupOf s k with
      | nil =>
        have hknotin : k ∉ s.map fun e => e.1 := (groupOf_eq_nil s k).mp hg
        have hfilter : ((keysFirstOccur (s.map fun e => e.1)).filter fun x => x ≠ k) =
            keysFirstOccur (s.map fun e => e.1) :=
          List.filter_eq_self.mpr fun x hx => by
            simp only [decide_eq_true_eq]
            intro h
            subst h
            exact hknotin ((mem_keysFirstOccur _ x).mp hx)
        rw [hfilter]
        have hpn : pairOfM none [f] = [] := rfl
        rw [hpn, List.nil_append]
        have hcongr : ((keysFirstOccur (s.map fun e => e.1)).flatMap
              fun k' => pairOfM (updKey m k f k') (groupOf s k')) =
            (keysFirstOccur (s.map fun e => e.1)).flatMap
              fun k' => pairOfM (m k') (groupOf ((k, f) :: s) k') := by
          refine flatMap_congr_mem _ _ _ fun k' hk' => ?_
          have hne : k' ≠ k := by
            intro h
            subst h
            exact hknotin ((mem_keysFirstOccur _ _).mp hk')
          rw [hgne k' hne, updKey, if_neg hne]
        rw [← hcongr]
        exact hperm
      | cons b rest =>
        have hlen : (f :: b :: rest).length ≤ 2 := by
          have := hman k
          rw [hgk, hmk, hg] at this
          simpa using this
        simp only [List.length_cons] at hlen
        have hrest : rest = [] := List.length_eq_zero.mp (by omega)
        subst hrest
        have hkin : k ∈ keysFirstOccur (s.map fun e => e.1) := by
          refine (mem_keysFirstOccur _ k).mpr ?_
          by_contra hno
          have := (groupOf_eq_nil s k).mpr hno
          rw [this] at hg
          cases hg
        have hKnd : (keysFirstOccur (s.map fun e => e.1)).Nodup := keysFirstOccur_nodup _
        have hKperm := perm_cons_filter_ne (keysFirstOccur (s.map fun e => e.1)) k hKnd hkin
        have htrans := hperm.trans (List.Perm.flatMap_right
          (fun k' => pairOfM (updKey m k f k') (groupOf s k')) hKperm)
        simp only [List.flatMap_cons] at htrans
        have hFk : pairOfM (updKey m k f k) (groupOf s k) = [(b, f), (f, b)] := by
          rw [hg]
          simp [updKey, pairOfM]
        rw [hFk] at htrans
        have hcongr : (((keysFirstOccur (s.map fun e => e.1)).filter fun x => x ≠ k).flatMap
              fun k' => pairOfM (updKey m k f k') (groupOf s k')) =
            ((keysFirstOccur (s.map fun e => e.1)).filter fun x => x ≠ k).flatMap
              fun k' => pairOfM (m k') (groupOf ((k, f) :: s) k') := by
          refine flatMap_congr_mem _ _ _ fun k' hk' => ?_
          have hne : k' ≠ k := by
            have := (List.mem_filter.mp hk').2
            simpa using this
          rw [hgne k' hne, updKey, if_neg hne]
        rw [hcongr] at htrans
        refine htrans.trans ?_
        have hpn : pairOfM none [f, b] = [(f, b), (b, f)] := rfl
        rw [hpn]
        exact List.Perm.append (List.Perm.swap (f, b) (b, f) []) (List.Perm.refl _)

/-! ## Sub-geometry extractor lemmas -/

lemma extractCorner_fresh_counter (pos : List ℚ) (idx : List Nat)
    (nrm uv : Option (List ℚ)) (g : SubGeom) (f i : Nat)
    (h : keyLookup g.vertexMap (idx.get? (3 * f + i)) = none) :
    (extractCorner pos idx nrm uv g f i).counter = g.counter + 1 := by
  simp only [extractCorner, h]

lemma extractCorner_fresh_vm (pos : List ℚ) (idx : List Nat)
    (nrm uv : Option (List ℚ)) (g : SubGeom) (f i : Nat)
    (h : keyLookup g.vertexMap (idx.get? (3 * f + i)) = none) :
    (extractCorner pos idx nrm uv g f i).vertexMap =
      g.vertexMap ++ [(idx.get? (3 * f + i), g.counter)] := by
  simp only [extractCorner, h]

lemma extractCorner_fresh_ni (pos : List ℚ) (idx : List Nat)
    (nrm uv : Option (List ℚ)) (g : SubGeom) (f i : Nat)
    (h : keyLookup g.vertexMap (idx.get? (3 * f + i)) = none) :
    (extractCorner pos idx nrm uv g f i).newIndices =
      g.newIndices ++ [g.counter] := by
  simp only [extractCorner, h]

lemma extractCorner_fresh_np (pos : List ℚ) (idx : List Nat)
    (nrm uv : Option (List ℚ)) (g : SubGeom) (f i : Nat)
    (h : keyLookup g.vertexMap (idx.get? (3 * f + i)) = none) :
    (extractCorner pos idx nrm uv g f i).newPositions.length =
      g.newPositions.length + 3 := by
  have hlen : (posReadsOf pos (idx.get? (3 * f + i))).length = 3 := by
    cases idx.get? (3 * f + i) <;> rfl
  simp only [extractCorner, h, List.length_append, hlen]

/-- For a face whose three corner reads are pairwise distinct the extractor
emits exactly three fresh vertices and the single local triangle `[0,1,2]`:
the face-set `[f]` yields a 3-vertex, 1-triangle sub-geometry. -/
lemma extract_single (pos : List ℚ) (idx : List Nat) (nrm uv : Option (List ℚ)) (f : Nat)
    (h01 : idx.get? (3 * f) ≠ idx.get? (3 * f + 1))
    (h02 : idx.get? (3 * f) ≠ idx.get? (3 * f + 2))
    (h12 : idx.get? (3 * f + 1) ≠ idx.get? (3 * f + 2)) :
    (createMeshFromFaces pos idx nrm uv [f]).counter = 3 ∧
      (createMeshFromFaces pos idx nrm uv [f]).newIndices = [0, 1, 2] ∧
      (createMeshFromFaces pos idx nrm uv [f]).newPositions.length = 9 := by
  have hunfold : createMeshFromFaces pos idx nrm uv [f] =
      extractCorner pos idx nrm uv
        (extractCorner pos idx nrm uv
          (extractCorner pos idx nrm uv SubGeom.empty f 0) f 1) f 2 := rfl
  set g0 := SubGeom.empty with hg0
  set g1 := extractCorner pos idx nrm uv g0 f 0 with hg1
  set g2 := extractCorner pos idx nrm uv g1 f 1 with hg2
  have hk0 : keyLookup g0.vertexMap (idx.get? (3 * f + 0)) = none := rfl
  have hvm1 : g1.vertexMap = [(idx.get? (3 * f + 0), 0)] := by
    rw [hg1, extractCorner_fresh_vm pos idx nrm uv g0 f 0 hk0]
    rfl
  have hc1 : g1.counter = 1 := by
    rw [hg1, extractCorner_fresh_counter pos idx nrm uv g0 f 0 hk0]
    rfl
  have hni1 : g1.newIndices = [0] := by
    rw [hg1, extractCorner_fresh_ni pos idx nrm uv g0 f 0 hk0]
    rfl
  have hnp1 : g1.newPositions.length = 3 := by
    rw [hg1, extractCorner_fresh_np pos idx nrm uv g0 f 0 hk0]
    rfl
  have hk1 : keyLookup g1.vertexMap (idx.get? (3 * f + 1)) = none := by
    rw [hvm1]
    unfold keyLookup
    rw [List.find?_cons_of_neg _ (by
      simp only [decide_eq_true_eq]
      simpa using h01)]
    rfl
  have hvm2 : g2.vertexMap =
      [(idx.get? (3 * f + 0), 0), (idx.get? (3 * f + 1), 1)] := by
    rw [hg2, extractCorner_fresh_vm pos idx nrm uv g1 f 1 hk1, hvm1, hc1]
    rfl
  have hc2 : g2.counter = 2 := by
    rw [hg2, extractCorner_fresh_counter pos idx nrm uv g1 f 1 hk1, hc1]
  have hni2 : g2.newIndices = [0, 1] := by
    rw [hg2, extractCorner_fresh_ni pos idx nrm uv g1 f 1 hk1, hni1, hc1]
    rfl
  have hnp2 : g2.newPositions.length = 6 := by
    rw [hg2, extractCorner_fresh_np pos idx nrm uv g1 f 1 hk1, hnp1]
  have hk2 : keyLookup g2.vertexMap (idx.get? (3 * f + 2)) = none := by
    rw [hvm2]
    unfold keyLookup
    rw [List.find?_cons_of_neg _ (by
      simp only [decide_eq_true_eq]
      simpa using h02),
      List.find?_cons_of_neg _ (by
      simp only [decide_eq_true_eq]
      simpa using h12)]
    rfl
  refine ⟨?_, ?_, ?_⟩
  · rw [hunfold]
    rw [extractCorner_fresh_counter pos idx nrm uv g2 f 2 hk2, hc2]
  · rw [hunfold]
    rw [extractCorner_fresh_ni pos idx nrm uv g2 f 2 hk2, hni2, hc2]
    rfl
  · rw [hunfold]
    rw [extractCorner_fresh_np pos idx nrm uv g2 f 2 hk2, hnp2]

/-- The dedup structure (vertex map, vertex counter, local index buffer) is
a function of the index buffer and face list alone: positions, normals and
UVs never enter the dedup key. -/
lemma extractCorner_posfree (pos pos' : List ℚ) (idx : List Nat)
    (nrm uv nrm' uv' : Option (List ℚ)) (g g' : SubGeom) (f i : Nat)
    (h1 : g.vertexMap = g'.vertexMap) (h2 : g.counter = g'.counter)
    (h3 : g.newIndices = g'.newIndices) :
    (extractCorner pos idx nrm uv g f i).vertexMap =
        (extractCorner pos' idx nrm' uv' g' f i).vertexMap ∧
      (extractCorner pos idx nrm uv g f i).counter =
        (extractCorner pos' idx nrm' uv' g' f i).counter ∧
      (extractCorner pos idx nrm uv g f i).newIndices =
        (extractCorner pos' idx nrm' uv' g' f i).newIndices := by
  cases hkl : keyLookup g.vertexMap (idx.get? (3 * f + i)) with
  | some nvi =>
    have hkl' : keyLookup g'.vertexMap (idx.get? (3 * f + i)) = some nvi := by
      rw [← h1]; exact hkl
    simp only [extractCorner, hkl, hkl', h1, h2, h3]
    exact ⟨trivial, trivial, trivial⟩
  | none =>
    have hkl' : keyLookup g'.vertexMap (idx.get? (3 * f + i)) = none := by
      rw [← h1]; exact hkl
    simp only [extractCorner, hkl, hkl', h1, h2, h3]
    exact ⟨trivial, trivial, trivial⟩

lemma adjacencyML_src_lt (idx : List Nat) (x y : Nat) (hy : y ∈ adjacencyML idx x) :
    x < numFaces idx := by
  simp only [adjacencyML, List.mem_map, List.mem_filter] at hy
  obtain ⟨p, ⟨hp, hfst⟩, rfl⟩ := hy
  have hb := (fsLinks_bound (· < numFaces idx) _ _ (fun _ _ h => by simp at h)
    (mem_edgeSightings_lt idx) p hp).1
  have hx : p.1 = x := by simpa using hfst
  exact hx ▸ hb

lemma facesOfLabel_nodup (m : FaceMaterials) (h : keysNodup m) (L : String) :
    (facesOfLabel m L).Nodup := by
  unfold facesOfLabel
  exact List.Nodup.sublist (List.Sublist.map _ (List.filter_sublist m)) h

/-- If every key of the store is unique, `regionOf` and entry membership
coincide. -/
lemma regionOf_eq_some_iff (m : FaceMaterials) (h : keysNodup m) (f : Nat) (L : String) :
    regionOf m f = some L ↔ (f, L) ∈ m := by
  constructor
  · intro hro
    unfold regionOf at hro
    cases hfind : m.find? fun e => e.1 = f with
    | none => rw [hfind] at hro; cases hro
    | some e =>
      rw [hfind] at hro
      have hL : e.2 = L := by simpa using hro
      have hef : e.1 = f := by simpa using List.find?_some hfind
      have hem : e ∈ m := List.mem_of_find?_eq_some hfind
      have : e = (f, L) := by
        rw [← hef, ← hL]
      exact this ▸ hem
  · intro hmem
    unfold regionOf
    cases hfind : m.find? fun e => e.1 = f with
    | none =>
      exfalso
      have := List.find?_eq_none.mp hfind (f, L) hmem
      simp at this
    | some e =>
      have hef : e.1 = f := by simpa using List.find?_some hfind
      have hem : e ∈ m := List.mem_of_find?_eq_some hfind
      have he : e = (e.1, e.2) := rfl
      have : e.2 = L :=
        value_eq_of_keysNodup m f e.2 L h (by rw [← hef]; exact he ▸ hem) hmem
      simp [this]

lemma createMesh_posfree (idx : List Nat) (faceIds : List Nat)
    (pos pos' : List ℚ) (nrm uv nrm' uv' : Option (List ℚ)) :
    (createMeshFromFaces pos idx nrm uv faceIds).vertexMap =
        (createMeshFromFaces pos' idx nrm' uv' faceIds).vertexMap ∧
      (createMeshFromFaces pos idx nrm uv faceIds).counter =
        (createMeshFromFaces pos' idx nrm' uv' faceIds).counter ∧
      (createMeshFromFaces pos idx nrm uv faceIds).newIndices =
        (createMeshFromFaces pos' idx nrm' uv' faceIds).newIndices := by
  unfold createMeshFromFaces
  have main : ∀ (fs : List Nat) (g g' : SubGeom),
      g.vertexMap = g'.vertexMap → g.counter = g'.counter →
      g.newIndices = g'.newIndices →
      (fs.foldl (fun g f => [0, 1, 2].foldl
          (fun g i => extractCorner pos idx nrm uv g f i) g) g).vertexMap =
        (fs.foldl (fun g f => [0, 1, 2].foldl
          (fun g i => extractCorner pos' idx nrm' uv' g f i) g) g').vertexMap ∧
      (fs.foldl (fun g f => [0, 1, 2].foldl
          (fun g i => extractCorner pos idx nrm uv g f i) g) g).counter =
        (fs.foldl (fun g f => [0, 1, 2].foldl
          (fun g i => extractCorner pos' idx nrm' uv' g f i) g) g').counter ∧
      (fs.foldl (fun g f => [0, 1, 2].foldl
          (fun g i => extractCorner pos idx nrm uv g f i) g) g).newIndices =
        (fs.foldl (fun g f => [0, 1, 2].foldl
          (fun g i => extractCorner pos' idx nrm' uv' g f i) g) g').newIndices := by
    intro fs
    induction fs with
    | nil => exact fun g g' h1 h2 h3 => ⟨h1, h2, h3⟩
    | cons f fs ih =>
      intro g g' h1 h2 h3
      simp only [List.foldl_cons]
      have s0 := extractCorner_posfree pos pos' idx nrm uv nrm' uv' g g' f 0 h1 h2 h3
      have s1 := extractCorner_posfree pos pos' idx nrm uv nrm' uv' _ _ f 1 s0.1 s0.2.1 s0.2.2
      have s2 := extractCorner_posfree pos pos' idx nrm uv nrm' uv' _ _ f 2 s1.1 s1.2.1 s1.2.2
      exact ih _ _ s2.1 s2.2.1 s2.2.2
  exact main faceIds SubGeom.empty SubGeom.empty rfl rfl rfl

/-! ## Claim theorems -/

/-- C1: for every mesh and seed, `findCoplanarRegion` returns exactly the
faces reachable from the seed in the adjacency graph through faces passing
the coplanarity predicate against the original seed face's reference plane
(`coplanarOK`: `|dot(seedNormal, nbNormal)| > 1 − ε_n` and the neighbour's
first vertex within distance `ε_d` of the seed plane, `ε_n = ε_d = 1e-5`);
the reference plane, fixed in `ReachCop`, is never updated during the
traversal. -/
theorem C1_bfs_enqueues_iff_coplanar (pos : List ℚ) (idx : List Nat) (seed g : Nat) :
    g ∈ findCoplanarRegion pos idx seed ↔ ReachCop pos idx seed g :=
  findCoplanar_mem_iff pos idx seed g

/-- C2: for every mesh and every seed face id — in range or not — the face
set returned by `findCoplanarRegion` contains the seed face itself. -/
theorem C2_region_contains_seed (pos : List ℚ) (idx : List Nat) (seed : Nat) :
    seed ∈ findCoplanarRegion pos idx seed :=
  (findCoplanar_mem_iff pos idx seed seed).mpr ReachAdj.seed

/-- C3: `buildAdjacency` tolerates non-manifold input: whenever an edge key
is shared by more than two faces the buffer is still processed and every
sharer after the first is linked bidirectionally to the first sharer, so
adjacency is recorded across such edges; concretely, on `idxNM` the edge
(0,1) is shared by four faces and face 0 collects more than 3 adjacency
entries. -/
theorem C3_nonmanifold_tolerated :
    (∀ (idx : List Nat) (k : EdgeKey) (a f : Nat) (rest : List Nat),
        groupOf (edgeSightings idx) k = a :: rest → 2 < (a :: rest).length →
        f ∈ rest → a ∈ adjacencyML idx f ∧ f ∈ adjacencyML idx a) ∧
      2 < (groupOf (edgeSightings idxNM) (some 0, some 1)).length ∧
      3 < (adjacencyML idxNM 0).length := by
  refine ⟨?_, by decide, by decide⟩
  intro idx k a f rest hg _ hf
  exact adjacencyML_link idx k a f rest hg hf

/-- C3 witness: on the concrete non-manifold buffer, face 1 (a later
sharer of the edge (0,1)) is linked both ways to face 0 (its first
sharer). -/
theorem C3_nonmanifold_tolerated_witness :
    0 ∈ adjacencyML idxNM 1 ∧ 1 ∈ adjacencyML idxNM 0 :=
  C3_nonmanifold_tolerated.1 idxNM (some 0, some 1) 0 1 [1, 2, 3]
    (by decide) (by decide) (by decide)

/-- C4 counterexample: on the malformed buffer `[0,1,2,3]` (length not a
multiple of 3) `_buildAdjacencyList` does not signal `InvalidGeometry`: the
call returns normally. -/
theorem C4_counterexample :
    idxBad.length % 3 ≠ 0 ∧ (buildAdjacencyRun idxBad).isOk = true := by
  decide

/-- C4 amended: `buildAdjacency` performs no input validation and has no
failure mode for any index buffer: every call — malformed length included —
returns the built adjacency normally (the loop covers `⌈length/3⌉` faces,
the trailing partial face reading `undefined` entries). -/
theorem C4_no_failure_mode (idx : List Nat) :
    (buildAdjacencyRun idx).isOk = true := rfl

/-- C5 counterexample: `findCoplanarRegion` on the single-triangle mesh with
the out-of-range seed 5 does not fail with `InvalidFaceId` — it returns
normally with `{5}` — and assigning the batch `[5]` does not leave the
store unchanged: the out-of-range id 5 becomes mapped to the label. -/
theorem C5_counterexample :
    numFaces idxTri ≤ 5 ∧
      (findCoplanarRun posTri idxTri 5).isOk = true ∧
      findCoplanarRegion posTri idxTri 5 = {5} ∧
      regionOf ([] : FaceMaterials) 5 = none ∧
      regionOf (assignFaces [] [5] "red") 5 = some "red" := by
  decide

/-- C5 amended: out-of-range face ids are accepted, not rejected: for every
seed at or beyond the face count `findCoplanarRegion` returns the singleton
`{seed}` without error, and `assign` records a mapping for every id of its
batch — out of range or not — mutating the store rather than failing
atomically. -/
theorem C5_out_of_range_accepted (pos : List ℚ) (idx : List Nat) (seed : Nat)
    (st : FaceMaterials) (S : List Nat) (L : String) (f : Nat)
    (hseed : numFaces idx ≤ seed) (hf : f ∈ S) :
    findCoplanarRegion pos idx seed = {seed} ∧
      regionOf (assignFaces st S L) f = some L := by
  constructor
  · apply Finset.ext
    intro g
    rw [findCoplanar_mem_iff, Finset.mem_singleton]
    constructor
    · intro hr
      induction hr with
      | seed => rfl
      | step hx hyadj _ ihx =>
        subst ihx
        exact absurd (adjacencyML_src_lt idx _ _ hyadj) (by omega)
    · intro h
      subst h
      exact ReachAdj.seed
  · rw [regionOf_assignFaces, if_pos hf]

/-- C5 witness: the amended behaviour at the concrete out-of-range input. -/
theorem C5_out_of_range_accepted_witness :
    findCoplanarRegion posTri idxTri 5 = {5} ∧
      regionOf (assignFaces [] [5] "red") 5 = some "red" :=
  C5_out_of_range_accepted posTri idxTri 5 [] [5] "red" 5 (by decide) (by decide)

/-- C6: after any sequence of store operations each face id belongs to at
most one region label (the two labels of any double membership coincide),
and assigning a face to a new label removes it from every other label's
face set. -/
theorem C6_partition_exclusive (ops : List StoreOp) (f : Nat) (L1 L2 : String)
    (S : List Nat) (L Lother : String)
    (h1 : f ∈ facesOfLabel (runOps ops) L1) (h2 : f ∈ facesOfLabel (runOps ops) L2)
    (hf : f ∈ S) (hne : Lother ≠ L) :
    L1 = L2 ∧ f ∉ facesOfLabel (assignFaces (runOps ops) S L) Lother := by
  constructor
  · exact value_eq_of_keysNodup _ f L1 L2 (keysNodup_runOps ops)
      ((mem_facesOfLabel _ _ _).mp h1) ((mem_facesOfLabel _ _ _).mp h2)
  · intro hmem
    have hnd : keysNodup (assignFaces (runOps ops) S L) :=
      keysNodup_applyOp (runOps ops) (.assign S L) (keysNodup_runOps ops)
    have hro := (regionOf_eq_some_iff _ hnd f Lother).mpr
      ((mem_facesOfLabel _ _ _).mp hmem)
    rw [regionOf_assignFaces, if_pos hf] at hro
    exact hne (by simpa using hro.symm)

/-- C6 witness: assign faces {0,1} to "red", then face 1 to "blue"; face 1
belongs only to "blue", and re-assigning it to "green" removes it from
"blue". -/
theorem C6_partition_exclusive_witness :
    ("blue" : String) = "blue" ∧
      1 ∉ facesOfLabel
        (assignFaces (runOps [.assign [0, 1] "red", .assign [1] "blue"]) [1] "green")
        "blue" :=
  C6_partition_exclusive [.assign [0, 1] "red", .assign [1] "blue"] 1 "blue" "blue"
    [1] "green" "blue" (by decide) (by decide) (by decide) (by decide)

/-- C7: assignment is idempotent: running `assign(S, L)` twice leaves the
same observable partition state — `regionOf` at every face and
`contiguousRanges` at every label — as running it once (the store is in
fact structurally identical). -/
theorem C7_assign_idempotent (m : FaceMaterials) (S : List Nat) (L : String) :
    (∀ f, regionOf (assignFaces (assignFaces m S L) S L) f =
        regionOf (assignFaces m S L) f) ∧
      ∀ Lq, contiguousRanges (assignFaces (assignFaces m S L) S L) Lq =
        contiguousRanges (assignFaces m S L) Lq := by
  have h := assignFaces_idem m S L
  exact ⟨fun f => by rw [h], fun Lq => by rw [h]⟩

/-- C8: for every reachable store and label, `contiguousRanges` returns the
maximal runs of consecutive face ids owned by the label: their
concatenation is a permutation of the label's face set (union exactly, no
duplicates), the runs are pairwise disjoint, each run is nonempty and
consecutive, adjacent runs are separated by a real gap (maximality), and
the concatenation is sorted ascending. -/
theorem C8_contiguous_ranges (ops : List StoreOp) (L : String) :
    ((contiguousRanges (runOps ops) L).flatten.Perm (facesOfLabel (runOps ops) L)) ∧
      List.Pairwise List.Disjoint (contiguousRanges (runOps ops) L) ∧
      (∀ g ∈ contiguousRanges (runOps ops) L,
        g ≠ [] ∧ List.Chain' (fun a b => b = a + 1) g) ∧
      List.Chain' GapBetween (contiguousRanges (runOps ops) L) ∧
      List.Sorted (· ≤ ·) (contiguousRanges (runOps ops) L).flatten := by
  have hnd : keysNodup (runOps ops) := keysNodup_runOps ops
  have hfn : (facesOfLabel (runOps ops) L).Nodup := facesOfLabel_nodup _ hnd L
  have hsorted : List.Sorted (· ≤ ·) (sortedFacesOf (runOps ops) L) :=
    List.sorted_mergeSort' _
  have hperm : (sortedFacesOf (runOps ops) L).Perm (facesOfLabel (runOps ops) L) :=
    List.mergeSort_perm _ _
  have hxnd : (sortedFacesOf (runOps ops) L).Nodup := hperm.nodup_iff.mpr hfn
  have hflat : (contiguousRanges (runOps ops) L).flatten = sortedFacesOf (runOps ops) L :=
    groupCont_flatten _
  have hlt : List.Pairwise (· < ·) (sortedFacesOf (runOps ops) L) :=
    (List.Pairwise.and hsorted hxnd).imp fun h => lt_of_le_of_ne h.1 h.2
  refine ⟨?_, ?_, ?_, ?_, ?_⟩
  · rw [hflat]; exact hperm
  · have hj : (contiguousRanges (runOps ops) L).flatten.Nodup := by
      rw [hflat]; exact hxnd
    exact (List.nodup_flatten.mp hj).2
  · intro g hg
    unfold contiguousRanges at hg
    cases hxs : sortedFacesOf (runOps ops) L with
    | nil => rw [hxs] at hg; simp [groupContinuousIndices] at hg
    | cons x xs =>
      rw [hxs] at hg
      simp only [groupContinuousIndices] at hg
      exact ⟨groupRun_ne_nil xs [x] x (by simp) g hg,
        groupRun_chain xs [x] x rfl (List.chain'_singleton x) g hg⟩
  · unfold contiguousRanges
    cases hxs : sortedFacesOf (runOps ops) L with
    | nil => simp [groupContinuousIndices]
    | cons x xs =>
      simp only [groupContinuousIndices]
      refine groupRun_gaps xs [x] x ?_ rfl
      have hc : List.Chain' (· < ·) (x :: xs) := by
        rw [← hxs]
        exact hlt.chain'
      exact hc
  · rw [hflat]; exact hsorted

/-- C9 counterexample: a single-triangle face set over the degenerate face
`(0,0,0)` (the same original vertex index three times) yields 1 vertex, not
the 3 the claim asserts for every mesh. -/
theorem C9_counterexample :
    (createMeshFromFaces posTri [0, 0, 0] none none [0]).counter = 1 ∧
      (createMeshFromFaces posTri [0, 0, 0] none none [0]).counter ≠ 3 := by
  decide

/-- C9 amended: for a single-triangle face set whose three corner reads are
pairwise distinct, `extract` yields exactly 3 vertices and the single local
triangle `[0,1,2]`; in general the dedup structure (vertex map, vertex
count, local index buffer) is computed from original-vertex-index identity
alone — changing positions, normals or UVs cannot change it — and two
vertices at the same position but different original indices stay distinct
(the concrete mesh `posDup` keeps all 3). -/
theorem C9_extract_dedup (pos pos' : List ℚ) (idx : List Nat)
    (nrm uv nrm' uv' : Option (List ℚ)) (f : Nat) (faceIds : List Nat)
    (h01 : idx.get? (3 * f) ≠ idx.get? (3 * f + 1))
    (h02 : idx.get? (3 * f) ≠ idx.get? (3 * f + 2))
    (h12 : idx.get? (3 * f + 1) ≠ idx.get? (3 * f + 2)) :
    ((createMeshFromFaces pos idx nrm uv [f]).counter = 3 ∧
        (createMeshFromFaces pos idx nrm uv [f]).newIndices = [0, 1, 2] ∧
        (createMeshFromFaces pos idx nrm uv [f]).newPositions.length = 9) ∧
      ((createMeshFromFaces pos idx nrm uv faceIds).counter =
          (createMeshFromFaces pos' idx nrm' uv' faceIds).counter ∧
        (createMeshFromFaces pos idx nrm uv faceIds).newIndices =
          (createMeshFromFaces pos' idx nrm' uv' faceIds).newIndices) ∧
      (createMeshFromFaces posDup [0, 1, 2] none none [0]).counter = 3 := by
  refine ⟨extract_single pos idx nrm uv f h01 h02 h12, ?_, by decide⟩
  have h := createMesh_posfree idx faceIds pos pos' nrm uv nrm' uv'
  exact ⟨h.2.1, h.2.2⟩

/-- C9 witness: the amended claim at the concrete one-triangle mesh. -/
theorem C9_extract_dedup_witness :
    ((createMeshFromFaces posTri idxTri none none [0]).counter = 3 ∧
        (createMeshFromFaces posTri idxTri none none [0]).newIndices = [0, 1, 2] ∧
        (createMeshFromFaces posTri idxTri none none [0]).newPositions.length = 9) ∧
      ((createMeshFromFaces posTri idxTri none none [0]).counter =
          (createMeshFromFaces posDup idxTri none none [0]).counter ∧
        (createMeshFromFaces posTri idxTri none none [0]).newIndices =
          (createMeshFromFaces posDup idxTri none none [0]).newIndices) ∧
      (createMeshFromFaces posDup [0, 1, 2] none none [0]).counter = 3 :=
  C9_extract_dedup posTri posDup idxTri none none none none 0 [0]
    (by decide) (by decide) (by decide)

/-- C10: on manifold input (every canonical edge key sighted at most
twice), the three `_buildAdjacencyList` duplicates agree: the
`MaterialLibrary` and `HighlightManager` builders are literally equal, and
for every face the `SelectionManager` builder (collect-then-link-pairs)
yields the same neighbour multiset as the first-sighting builders. -/
theorem C10_adjacency_builders_agree (idx : List Nat) (f : Nat)
    (hman : ∀ k ∈ keysFirstOccur ((edgeSightings idx).map fun e => e.1),
      (groupOf (edgeSightings idx) k).length ≤ 2) :
    adjacencyML idx f = adjacencyHM idx f ∧
      (adjacencyML idx f : Multiset Nat) = (adjacencySM idx f : Multiset Nat) := by
  refine ⟨rfl, ?_⟩
  have hman' : ∀ k, (groupOf (edgeSightings idx) k).length +
      (if (none : Option Nat).isSome then 1 else 0) ≤ 2 := by
    intro k
    simp only [Option.isSome_none, if_neg, Bool.false_eq_true, not_false_eq_true, if_false]
    by_cases hk : k ∈ keysFirstOccur ((edgeSightings idx).map fun e => e.1)
    · simpa using hman k hk
    · have : k ∉ (edgeSightings idx).map fun e => e.1 := fun h =>
        hk ((mem_keysFirstOccur _ k).mpr h)
      rw [(groupOf_eq_nil _ k).mpr this]
      simp
  have hlinks := fsLinks_perm (edgeSightings idx) (fun _ => none) hman'
  have heq : ((keysFirstOccur ((edgeSightings idx).map fun e => e.1)).flatMap
        fun k => pairOfM none (groupOf (edgeSightings idx) k)) = adjLinksSM idx := by
    unfold adjLinksSM pairLinks
    refine flatMap_congr_mem _ _ _ fun k _ => ?_
    exact pairOfM_none_eq (groupOf (edgeSightings idx) k)
  rw [heq] at hlinks
  refine Multiset.coe_eq_coe.mpr ?_
  exact (hlinks.filter _).map _

/-- C10 witness: the builders agree on the concrete flat-square mesh. -/
theorem C10_adjacency_builders_agree_witness :
    adjacencyML idxSq 0 = adjacencyHM idxSq 0 ∧
      (adjacencyML idxSq 0 : Multiset Nat) = (adjacencySM idxSq 0 : Multiset Nat) :=
  C10_adjacency_builders_agree idxSq 0 (by decide)

end Primo
